import Mathlib

/-!
Shallow embedding of a four-stage compiler front-end (src/app.py):
Lexer → Parser → SemanticAnalyzer → ICG (intermediate code generator).

Python machine state is modelled explicitly:
* a `Token` is a pair of strings, as in the Python `Token` class;
* the parser's mutable fields (`tokens`, `pos`, `ast`, `errors`) are the
  fields of `PState`, and every method is a state-passing function;
* Python `None` flowing through the expression grammar is the `PExpr.enone`
  constructor (a non-empty Python tuple is always truthy, `None` is falsy);
* fallible recursion carries a fuel parameter; `none`/`Except.error` of an
  internal fuel message marks exhaustion, and sufficiency lemmas show the
  chosen fuel can never run out, mirroring Python's unbounded loops;
* an operation that would raise a Python exception returns `Option.none`
  (`ICG.handle_expr` subscripting `None`), and the route-level handler
  `analyze_route` mirrors the `try/except` of the `/analyze` endpoint.
-/

/-- A lexical token, mirroring the Python `Token` class (`type`, `value`). -/
structure Token where
  type : String
  value : String
deriving DecidableEq

/-! ## Lexer

`Lexer.tokenize` uses one `re.finditer` over an alternation of named groups
tried in a fixed order.  At each scan position the first group (in listed
order) that the regex engine can match wins; every matcher below reproduces
the corresponding regex, including word-boundary (`\b`) behaviour, greedy
and non-greedy repetition, and the backtracking that `\b\d+(\.\d+)?\b`
performs when the trailing boundary fails.  Matchers receive the previous
consumed character (for `\b`), the character at the scan position, and the
remaining characters, and return how many extra characters beyond the first
are consumed. -/

/-- Python `\w` on ASCII input: letters, digits, underscore. -/
def isWordChar (c : Char) : Bool := c.isAlpha || c.isDigit || c == '_'

/-- Python `\s` on ASCII input. -/
def isPySpace (c : Char) : Bool :=
  c == ' ' || c == '\t' || c == '\n' || c == '\r' || c == '\x0b' || c == '\x0c'

/-- The `SKIP` rule's character class `[ \t\n]`. -/
def isSkipChar (c : Char) : Bool := c == ' ' || c == '\t' || c == '\n'

/-- Characters matched by the `OP` rule `[=+\-*/<>!]`. -/
def isOpChar (c : Char) : Bool :=
  c == '=' || c == '+' || c == '-' || c == '*' || c == '/' ||
  c == '<' || c == '>' || c == '!'

/-- Length of the longest prefix satisfying `p` (greedy character-class
repetition). -/
def countWhile (p : Char → Bool) (l : List Char) : Nat := (l.takeWhile p).length

/-- Predicate `listStarts pat l` holds when `pat` is an initial segment of `l`. -/
def listStarts : List Char → List Char → Bool
  | [], _ => true
  | _ :: _, [] => false
  | p :: ps, x :: xs => p == x && listStarts ps xs

/-- A `\b` holds before the scan position: no previous character, or a
non-word previous character (all tokens start with a word character here). -/
def prevOk : Option Char → Bool
  | none => true
  | some c => !isWordChar c

/-- A `\b` holds after a word character at this point of the input. -/
def boundaryOk : List Char → Bool
  | [] => true
  | c :: _ => !isWordChar c

/-- The keyword alternatives of the `KEYWORD` rule, in their listed order. -/
def keywordList : List String :=
  ["int", "float", "char", "double", "long", "short", "void", "return",
   "if", "else", "for", "while", "do", "printf", "scanf", "main"]

/-- Rule `INCLUDE`: `#\s*include\s*<[^>]+>`. Returns the number of characters
consumed beyond the leading `#`. -/
def m_include (c : Char) (rs : List Char) : Option Nat :=
  if c == '#' then
    let n1 := countWhile isPySpace rs
    let r1 := rs.drop n1
    if listStarts "include".toList r1 then
      let r2 := r1.drop 7
      let n2 := countWhile isPySpace r2
      match r2.drop n2 with
      | '<' :: r3 =>
        let nb := countWhile (fun x => x != '>') r3
        if 0 < nb then
          match r3.drop nb with
          | '>' :: _ => some (n1 + 7 + n2 + 1 + nb + 1)
          | _ => none
        else none
      | _ => none
    else none
  else none

/-- Scan the keyword alternatives in order; a keyword matches when it is
literally present and `\b` holds on both sides.  (At most one alternative
can satisfy the trailing `\b`, so the order only mirrors the regex.) -/
def kw_scan : List String → Char → List Char → Option Nat
  | [], _, _ => none
  | w :: ws, c, rs =>
    match w.toList with
    | x :: xs =>
      if x == c && listStarts xs rs && boundaryOk (rs.drop xs.length) then
        some xs.length
      else kw_scan ws c rs
    | [] => kw_scan ws c rs

/-- Rule `KEYWORD`: `\b(int|float|...|main)\b`. -/
def m_keyword (prev : Option Char) (c : Char) (rs : List Char) : Option Nat :=
  if prevOk prev then kw_scan keywordList c rs else none

/-- Rule `ID`: `\b[a-zA-Z_]\w*\b` (the greedy `\w*` ends at a non-word character,
so the trailing `\b` always holds). -/
def m_id (prev : Option Char) (c : Char) (rs : List Char) : Option Nat :=
  if prevOk prev && (c.isAlpha || c == '_') then
    some (countWhile isWordChar rs)
  else none

/-- Rule `NUM`: `\b\d+(\.\d+)?\b`, including the backtracking step: when the
boundary after the fractional part fails, the optional group is dropped and
the integer part alone matches (its trailing boundary is the `.`). -/
def m_num (prev : Option Char) (c : Char) (rs : List Char) : Option Nat :=
  if prevOk prev && c.isDigit then
    let n1 := countWhile Char.isDigit rs
    let r1 := rs.drop n1
    match r1 with
    | '.' :: r2 =>
      match r2 with
      | d :: _ =>
        if d.isDigit then
          let n2 := countWhile Char.isDigit r2
          if boundaryOk (r2.drop n2) then some (n1 + 1 + n2) else some n1
        else some n1
      | [] => some n1
    | _ => if boundaryOk r1 then some n1 else none
  else none

/-- Rule `STRING`: `".*?"` — non-greedy, and `.` does not cross a newline. -/
def m_string (c : Char) (rs : List Char) : Option Nat :=
  if c == '"' then
    let nb := countWhile (fun x => x != '"' && x != '\n') rs
    match rs.drop nb with
    | '"' :: _ => some (nb + 1)
    | _ => none
  else none

/-- Try the token rules at one scan position in their listed priority
order, returning the winning rule name and the extra characters consumed
beyond the first.  The single-character catch-all `MISMATCH` always
matches (the `.` cannot match `'\n'`, but `'\n'` is already taken by
`SKIP`). -/
def findRule (prev : Option Char) (c : Char) (rs : List Char) : String × Nat :=
  match m_include c rs with
  | some n => ("INCLUDE", n)
  | none =>
  match m_keyword prev c rs with
  | some n => ("KEYWORD", n)
  | none =>
  match m_id prev c rs with
  | some n => ("ID", n)
  | none =>
  match m_num prev c rs with
  | some n => ("NUM", n)
  | none =>
  match m_string c rs with
  | some n => ("STRING", n)
  | none =>
  if isOpChar c then ("OP", 0)
  else if c == '(' then ("LPAREN", 0)
  else if c == ')' then ("RPAREN", 0)
  else if c == '\x7b' then ("LBRACE", 0)
  else if c == '\x7d' then ("RBRACE", 0)
  else if c == '[' then ("LBRACKET", 0)
  else if c == ']' then ("RBRACKET", 0)
  else if c == ';' || c == ',' then ("DELIM", 0)
  else if isSkipChar c then ("SKIP", countWhile isSkipChar rs)
  else ("MISMATCH", 0)

/-- The scan loop of `Lexer.tokenize`: repeatedly match at the current
position, skipping `SKIP`, raising `RuntimeError` on `MISMATCH` (modelled
as `Except.error`), and collecting every other match as a token.  Each step
consumes at least one character, so fuel `length + 1` never runs out. -/
def tokenizeAux : Nat → Option Char → List Char → Except String (List Token)
  | 0, _, _ => .error "Internal fuel exhausted"
  | _ + 1, _, [] => .ok []
  | fuel + 1, prev, c :: rs =>
    let kn := findRule prev c rs
    let text := c :: rs.take kn.2
    let rest := rs.drop kn.2
    let lastc := List.foldl (fun _ x => x) c (rs.take kn.2)
    if kn.1 == "SKIP" then tokenizeAux fuel (some lastc) rest
    else if kn.1 == "MISMATCH" then
      .error ("Unexpected character: " ++ String.mk text)
    else
      match tokenizeAux fuel (some lastc) rest with
      | .ok toks => .ok (⟨kn.1, String.mk text⟩ :: toks)
      | .error e => .error e

/-- Function `Lexer.tokenize` from the start of the source string. -/
def Lexer.tokenize (code : String) : Except String (List Token) :=
  tokenizeAux (code.toList.length + 1) none code.toList

/-! ## AST

The Python AST nodes are tagged tuples; expression positions may hold
`None` (the parser's silent failure value), modelled by `PExpr.enone`. -/

/-- An expression tree as built by the parser.  `enone` is Python `None`:
the value `factor`/`mul_div`/`add_sub` produce when nothing matches, which
can end up inside a `binop` as a missing operand. -/
inductive PExpr where
  | leaf (v : String)
  | binop (op : String) (l : PExpr) (r : PExpr)
  | enone
deriving DecidableEq

/-- A statement-level AST node, one constructor per tuple tag the parser
appends (`include`, `declare`, `declare_array`, `assign_expr`, `printf`). -/
inductive Stmt where
  | include_ (text : String)
  | declare (typ name : String)
  | declare_array (typ name size : String)
  | assign_expr (typ name : String) (expr : PExpr)
  | printf (s : String)
deriving DecidableEq

/-! ## Semantic analyzer

`SemanticAnalyzer.analyze` walks the AST once carrying a set of declared
names (modelled as a list with no-duplicate insertion; only membership is
ever used) and a growing error list. -/

/-- The string `f"Semantic Error: '{name}' redeclared"`. -/
def redeclMsg (n : String) : String := "Semantic Error: '" ++ n ++ "' redeclared"

/-- The string `f"Semantic Error: Undeclared variable '{name}'"`. -/
def undeclMsg (n : String) : String :=
  "Semantic Error: Undeclared variable '" ++ n ++ "'"

/-- The loop body of `SemanticAnalyzer.analyze`: `syms` is the symbol set,
`errs` the accumulated error list. -/
def analyze_go : List Stmt → List String → List String → List String
  | [], _, errs => errs
  | st :: rest, syms, errs =>
    match st with
    | .declare _ n | .declare_array _ n _ =>
      if n ∈ syms then analyze_go rest syms (errs ++ [redeclMsg n])
      else analyze_go rest (n :: syms) errs
    | .assign_expr _ n _ =>
      if n ∈ syms then analyze_go rest syms errs
      else analyze_go rest syms (errs ++ [undeclMsg n])
    | _ => analyze_go rest syms errs

/-- Method `SemanticAnalyzer(ast).analyze()` — fresh symbol set and error list. -/
def SemanticAnalyzer.analyze (ast : List Stmt) : List String := analyze_go ast [] []

/-! ## Intermediate code generator -/

/-- The mutable state of an `ICG` instance: emitted lines and the
temporary counter. -/
structure IC where
  code : List String
  temp_count : Nat
deriving DecidableEq

/-- Name `f"t{n}"` for the incremented counter value `n`. -/
def tempName (n : Nat) : String := "t" ++ Nat.repr n

/-- Method `ICG.new_temp`: increment the counter, return the new name. -/
def new_temp (g : IC) : String × IC :=
  ("t" ++ Nat.repr (g.temp_count + 1), ⟨g.code, g.temp_count + 1⟩)

/-- Method `ICG.handle_expr`.  A `leaf` yields its text; a `binop` lowers left
then right, allocates a temporary and emits one line.  Receiving Python
`None` raises `TypeError` (`node[0]` on `None`), modelled as `none`. -/
def handle_expr : PExpr → IC → Option (String × IC)
  | .enone, _ => none
  | .leaf v, g => some (v, g)
  | .binop op l r, g =>
    (handle_expr l g).bind fun lv =>
      (handle_expr r lv.2).bind fun rv =>
        let t := new_temp rv.2
        some (t.1, ⟨t.2.code ++ [t.1 ++ " = " ++ lv.1 ++ " " ++ op ++ " " ++ rv.1],
                    t.2.temp_count⟩)

/-- The statement loop of `ICG.generate`. -/
def generate_go : List Stmt → IC → Option IC
  | [], g => some g
  | st :: rest, g =>
    match st with
    | .include_ txt => generate_go rest ⟨g.code ++ [txt], g.temp_count⟩
    | .declare ty n => generate_go rest ⟨g.code ++ [ty ++ " " ++ n], g.temp_count⟩
    | .declare_array ty n sz =>
      generate_go rest ⟨g.code ++ [ty ++ " " ++ n ++ "[" ++ sz ++ "]"], g.temp_count⟩
    | .assign_expr _ n e =>
      (handle_expr e g).bind fun r =>
        generate_go rest ⟨r.2.code ++ [n ++ " = " ++ r.1], r.2.temp_count⟩
    | .printf sv => generate_go rest ⟨g.code ++ ["print " ++ sv], g.temp_count⟩

/-- Method `ICG(ast).generate()` — fresh code list and counter starting at 0;
`none` when `handle_expr` raises on a `None` operand. -/
def ICG.generate (ast : List Stmt) : Option (List String) :=
  (generate_go ast ⟨[], 0⟩).map IC.code

/-! ## Parser

`Parser` holds `tokens`, a cursor `pos`, the growing `ast` and the
syntax-error list `errors`; every method below threads this state. -/

/-- The mutable state of a `Parser` instance. -/
structure PState where
  tokens : List Token
  pos : Nat
  ast : List Stmt
  errors : List String
deriving DecidableEq

/-- Method `Parser.match`: if the current token exists, has the requested type and
(when given) the requested value, consume it and return it; otherwise
return `None` without moving. -/
def pmatch (s : PState) (ty : String) (v : Option String) : Option Token × PState :=
  match s.tokens[s.pos]? with
  | some tok =>
    if tok.type = ty ∧ (v = none ∨ v = some tok.value) then
      (some tok, { s with pos := s.pos + 1 })
    else (none, s)
  | none => (none, s)

/-! The expression grammar (`expression`/`add_sub`/`mul_div`/`factor` and
the two operator loops) is one fueled step function over a call tag, so
that the mutual recursion is structural in the fuel and computable by the
kernel.  `addCont node`/`mulCont node` are the `while True` loops of
`add_sub`/`mul_div` carrying the accumulated left node. -/

/-- Call tags for the expression grammar's mutually recursive procedures. -/
inductive ECtx where
  | exprC
  | addSubC
  | addCont (node : PExpr)
  | mulDivC
  | mulCont (node : PExpr)
  | factorC
deriving DecidableEq

/-- One fueled interpreter for the expression grammar.  Python sources:
`expression` = `add_sub`; `add_sub` = `mul_div` then a loop matching
`+`/`-` and folding `('binop', op, node, right)` left-associatively;
`mul_div` likewise over `factor` with `*`/`/`; `factor` consumes a
`NUM`/`ID` leaf, recurses under parentheses (closing `)` matched
best-effort), or yields `None` (`PExpr.enone`). -/
def expr_run : Nat → ECtx → PState → Option (PExpr × PState)
  | 0, _, _ => none
  | fuel + 1, c, s =>
    match c with
    | .exprC => expr_run fuel .addSubC s
    | .addSubC =>
      (expr_run fuel .mulDivC s).bind fun p => expr_run fuel (.addCont p.1) p.2
    | .addCont node =>
      match pmatch s "OP" (some "+") with
      | (some op, s1) =>
        (expr_run fuel .mulDivC s1).bind fun p =>
          expr_run fuel (.addCont (.binop op.value node p.1)) p.2
      | (none, _) =>
        match pmatch s "OP" (some "-") with
        | (some op, s1) =>
          (expr_run fuel .mulDivC s1).bind fun p =>
            expr_run fuel (.addCont (.binop op.value node p.1)) p.2
        | (none, _) => some (node, s)
    | .mulDivC =>
      (expr_run fuel .factorC s).bind fun p => expr_run fuel (.mulCont p.1) p.2
    | .mulCont node =>
      match pmatch s "OP" (some "*") with
      | (some op, s1) =>
        (expr_run fuel .factorC s1).bind fun p =>
          expr_run fuel (.mulCont (.binop op.value node p.1)) p.2
      | (none, _) =>
        match pmatch s "OP" (some "/") with
        | (some op, s1) =>
          (expr_run fuel .factorC s1).bind fun p =>
            expr_run fuel (.mulCont (.binop op.value node p.1)) p.2
        | (none, _) => some (node, s)
    | .factorC =>
      match s.tokens[s.pos]? with
      | some tok =>
        if tok.type = "NUM" ∨ tok.type = "ID" then
          some (.leaf tok.value, { s with pos := s.pos + 1 })
        else if tok.type = "LPAREN" then
          (expr_run fuel .exprC (pmatch s "LPAREN" none).2).map fun p =>
            (p.1, (pmatch p.2 "RPAREN" none).2)
        else some (.enone, s)
      | none => some (.enone, s)

/-- Fuel that provably suffices for any expression parse over this token
list (see `expr_run_isSome`). -/
def exprFuel (s : PState) : Nat := 6 * s.tokens.length + 6

/-- Method `Parser.expression`. -/
def expression (fuel : Nat) (s : PState) : Option (PExpr × PState) :=
  expr_run fuel .exprC s

/-- The trailing delimiter check shared by the generic statement: require a
`DELIM`, else record `"Missing semicolon"`. -/
def delim_check (s : PState) : PState :=
  match pmatch s "DELIM" none with
  | (some _, s') => s'
  | (none, s') => { s' with errors := s'.errors ++ ["Syntax Error: Missing semicolon"] }

/-- The tail of `Parser.statement` from line 129: if `=` matches, parse an
expression; a falsy (`None`) result records `"Invalid expression"` and
stops, otherwise an `assign_expr` node is appended and the delimiter is
required.  `ty`/`idv` are the already-consumed type and identifier texts. -/
def stmt_after_decl (ty idv : String) (s : PState) : Option PState :=
  match pmatch s "OP" (some "=") with
  | (none, s1) => some (delim_check s1)
  | (some _, s1) =>
    (expression (exprFuel s1) s1).bind fun p =>
      if p.1 = PExpr.enone then
        some { p.2 with errors := p.2.errors ++ ["Syntax Error: Invalid expression"] }
      else
        some (delim_check { p.2 with ast := p.2.ast ++ [.assign_expr ty idv p.1] })

/-- Method `Parser.statement`: `KEYWORD ID`, optional `[ NUM ]` array suffix,
optional `= expression`, then delimiter.  Missing type-or-identifier
records `"Invalid declaration"` and skips exactly one token. -/
def statement (s : PState) : Option PState :=
  match pmatch s "KEYWORD" none with
  | (type_tok, s1) =>
    match pmatch s1 "ID" none with
    | (id_tok, s2) =>
      match type_tok, id_tok with
      | some tt, some it =>
        match pmatch s2 "LBRACKET" none with
        | (some _, s3) =>
          match pmatch s3 "NUM" none with
          | (none, s4) =>
            some { s4 with errors := s4.errors ++ ["Syntax Error: Invalid array declaration"] }
          | (some st, s4) =>
            match pmatch s4 "RBRACKET" none with
            | (none, s5) =>
              some { s5 with errors := s5.errors ++ ["Syntax Error: Invalid array declaration"] }
            | (some _, s5) =>
              stmt_after_decl tt.value it.value
                { s5 with ast := s5.ast ++ [.declare_array tt.value it.value st.value] }
        | (none, s3) =>
          stmt_after_decl tt.value it.value
            { s3 with ast := s3.ast ++ [.declare tt.value it.value] }
      | _, _ =>
        some { s2 with errors := s2.errors ++ ["Syntax Error: Invalid declaration"],
                       pos := s2.pos + 1 }

/-- The body of `Parser.printf_statement` after the `printf` keyword
match: require `( STRING )` and a delimiter; the first missing element
records its diagnostic and returns without touching the AST. -/
def printf_after_kw (s0 : PState) : PState :=
  match pmatch s0 "LPAREN" none with
  | (none, s1) => { s1 with errors := s1.errors ++ ["Syntax Error: Expected '('"] }
  | (some _, s1) =>
    match pmatch s1 "STRING" none with
    | (none, s2) => { s2 with errors := s2.errors ++ ["Syntax Error: Expected string in printf"] }
    | (some str_tok, s2) =>
      match pmatch s2 "RPAREN" none with
      | (none, s3) => { s3 with errors := s3.errors ++ ["Syntax Error: Expected ')' in printf"] }
      | (some _, s3) =>
        match pmatch s3 "DELIM" none with
        | (none, s4) =>
          { s4 with errors := s4.errors ++ ["Syntax Error: Missing semicolon after printf"] }
        | (some _, s4) => { s4 with ast := s4.ast ++ [.printf str_tok.value] }

/-- Method `Parser.printf_statement`: match (and discard the result of matching)
the `printf` keyword, then parse the parenthesised string and delimiter. -/
def printf_statement (s : PState) : PState :=
  printf_after_kw (pmatch s "KEYWORD" (some "printf")).2

/-- Method `Parser.lookahead_is_function`: the token after the cursor exists, is
an `ID` or `KEYWORD`, and reads `main`. -/
def lookahead_is_function (s : PState) : Bool :=
  match s.tokens[s.pos + 1]? with
  | some t => ((t.type == "ID") || (t.type == "KEYWORD")) && t.value == "main"
  | none => false

/-- The function-body loop of `Parser.function_definition`: until `}` or
end of input, dispatch `printf` statements and generic statements.  Each
iteration consumes at least one token, so fuel `length + 1` suffices. -/
def fn_body : Nat → PState → Option PState
  | 0, _ => none
  | fuel + 1, s =>
    match s.tokens[s.pos]? with
    | none => some s
    | some token =>
      if token.type = "RBRACE" then some s
      else if token.type = "KEYWORD" ∧ token.value = "printf" then
        fn_body fuel (printf_statement s)
      else (statement s).bind (fn_body fuel)

/-- The part of `Parser.function_definition` after the function name:
consume `(` and `)` unconditionally, require `{` (else record
`"Missing '{' in function"` and stop), parse the body, require `}` (else
record `"Missing '}' in function"`). -/
def fn_def_body (s2 : PState) : Option PState :=
  match pmatch s2 "LPAREN" none with
  | (_, s3) =>
  match pmatch s3 "RPAREN" none with
  | (_, s4) =>
  match pmatch s4 "LBRACE" none with
  | (none, s5) =>
    some { s5 with errors := s5.errors ++ ["Syntax Error: Missing '\x7b' in function"] }
  | (some _, s5) =>
    (fn_body (s5.tokens.length + 1) s5).bind fun s6 =>
      match pmatch s6 "RBRACE" none with
      | (some _, s7) => some s7
      | (none, s7) =>
        some { s7 with errors := s7.errors ++ ["Syntax Error: Missing '\x7d' in function"] }

/-- Method `Parser.function_definition`: consume return type (`KEYWORD`), then
the name (`KEYWORD` or, failing that, `ID`), then the rest. -/
def function_definition (s : PState) : Option PState :=
  match pmatch s "KEYWORD" none with
  | (_, s1) =>
  match pmatch s1 "KEYWORD" none with
  | (some _, s2) => fn_def_body s2
  | (none, _) => fn_def_body (pmatch s1 "ID" none).2

/-- The driver loop of `Parser.parse`: dispatch on the current token until
the cursor exhausts the sequence.  Every branch strictly advances the
cursor, so fuel `length + 1` suffices (`parse_loop_isSome`). -/
def parse_loop : Nat → PState → Option PState
  | 0, _ => none
  | fuel + 1, s =>
    match s.tokens[s.pos]? with
    | none => some s
    | some token =>
      if token.type = "INCLUDE" then
        parse_loop fuel
          { s with ast := s.ast ++ [.include_ token.value], pos := s.pos + 1 }
      else if token.type = "KEYWORD" then
        if lookahead_is_function s then (function_definition s).bind (parse_loop fuel)
        else if token.value = "printf" then parse_loop fuel (printf_statement s)
        else (statement s).bind (parse_loop fuel)
      else (statement s).bind (parse_loop fuel)

/-- Method `Parser(tokens).parse()`: fresh cursor, AST and error list; returns
the flat AST and the syntax-error list. -/
def Parser.parse (tokens : List Token) : Option (List Stmt × List String) :=
  (parse_loop (tokens.length + 1) ⟨tokens, 0, [], []⟩).map fun s => (s.ast, s.errors)

/-! ## The `/analyze` route

`analyze_route` is the pipeline body of the Flask route: tokenize, parse,
analyze, generate, with the route's `try/except` surfacing any raised
exception as a single error string in place of the four result lists. -/

/-- One pipeline run on a source string: `Ok (tokens, syntaxErrors,
semanticErrors, intermediateCode)` or the caught exception's message. -/
def analyze_route (code : String) :
    Except String (List Token × List String × List String × List String) :=
  match Lexer.tokenize code with
  | .error msg => .error msg
  | .ok tokens =>
    match Parser.parse tokens with
    | none => .error "Internal fuel exhausted"
    | some p =>
      let semantic_errors := SemanticAnalyzer.analyze p.1
      match ICG.generate p.1 with
      | none => .error "'NoneType' object is not subscriptable"
      | some intermediate_code => .ok (tokens, p.2, semantic_errors, intermediate_code)

/-! ## Parser infrastructure lemmas -/

/-- What any expression-grammar step preserves plus cursor monotonicity:
tokens, AST and errors unchanged, position not decreased. -/
def pFrame (s s' : PState) : Prop :=
  s'.tokens = s.tokens ∧ s'.ast = s.ast ∧ s'.errors = s.errors ∧ s.pos ≤ s'.pos

theorem pFrame_rfl (s : PState) : pFrame s s := ⟨rfl, rfl, rfl, Nat.le_refl _⟩

theorem pFrame_trans {s t u : PState} (h1 : pFrame s t) (h2 : pFrame t u) : pFrame s u :=
  ⟨h2.1.trans h1.1, h2.2.1.trans h1.2.1, h2.2.2.1.trans h1.2.2.1,
   h1.2.2.2.trans h2.2.2.2⟩

theorem pmatch_eq_some {s : PState} {ty : String} {v : Option String}
    {t : Token} {s' : PState} (h : pmatch s ty v = (some t, s')) :
    s' = { s with pos := s.pos + 1 } ∧ s.tokens[s.pos]? = some t := by
  unfold pmatch at h
  split at h
  case h_1 tok htok =>
    split at h
    · obtain ⟨h1, h2⟩ := Prod.mk.injEq .. ▸ h
      exact ⟨h2.symm, by rw [htok, h1]⟩
    · simp at h
  case h_2 htok => simp at h

theorem pmatch_eq_none {s : PState} {ty : String} {v : Option String}
    {s' : PState} (h : pmatch s ty v = (none, s')) : s' = s := by
  unfold pmatch at h
  split at h
  case h_1 tok htok =>
    split at h
    · simp at h
    · exact (Prod.mk.injEq .. ▸ h).2.symm
  case h_2 htok => exact (Prod.mk.injEq .. ▸ h).2.symm

theorem pmatch_frame (s : PState) (ty : String) (v : Option String) :
    pFrame s (pmatch s ty v).2 := by
  cases hp : pmatch s ty v with
  | mk o s' =>
    cases o with
    | some t =>
      obtain ⟨h1, _⟩ := pmatch_eq_some hp
      exact h1 ▸ ⟨rfl, rfl, rfl, Nat.le_succ _⟩
    | none => exact pmatch_eq_none hp ▸ pFrame_rfl s

/-- A `some` answer from `getElem?` proves the index is in range. -/
theorem getElem?_some_lt {α : Type} {l : List α} {n : Nat} {x : α}
    (h : l[n]? = some x) : n < l.length := by
  by_contra hn
  push_neg at hn
  rw [List.getElem?_eq_none hn] at h
  cases h

/-- A successful `pmatch` proves the cursor was in range. -/
theorem pmatch_pos_lt {s : PState} {ty : String} {v : Option String}
    {t : Token} {s' : PState} (h : pmatch s ty v = (some t, s')) :
    s.pos < s.tokens.length :=
  getElem?_some_lt (pmatch_eq_some h).2

/-- Helper `pmatch` with no value constraint succeeds on a current token of the
requested type. -/
theorem pmatch_hit {s : PState} {tok : Token} {ty : String}
    (h : s.tokens[s.pos]? = some tok) (hty : tok.type = ty) :
    pmatch s ty none = (some tok, { s with pos := s.pos + 1 }) := by
  unfold pmatch
  rw [h]
  simp [hty]

/-- The expression grammar only moves the cursor forward: tokens, AST and
errors are untouched. -/
theorem expr_run_frame :
    ∀ fuel c s p, expr_run fuel c s = some p → pFrame s p.2 := by
  intro fuel
  induction fuel with
  | zero => intro c s p h; simp [expr_run] at h
  | succ fuel ih =>
    intro c s p h
    cases c with
    | exprC =>
      simp only [expr_run] at h
      exact ih _ _ _ h
    | addSubC =>
      simp only [expr_run] at h
      cases hq : expr_run fuel .mulDivC s with
      | none => rw [hq] at h; cases h
      | some q =>
        rw [hq] at h
        simp only [Option.some_bind] at h
        exact pFrame_trans (ih _ _ _ hq) (ih _ _ _ h)
    | addCont node =>
      simp only [expr_run] at h
      split at h
      next op s1 hp =>
        have hf1 : pFrame s s1 := by
          have := pmatch_frame s "OP" (some "+"); rwa [hp] at this
        cases hq : expr_run fuel .mulDivC s1 with
        | none => rw [hq] at h; cases h
        | some q =>
          rw [hq] at h
          simp only [Option.some_bind] at h
          exact pFrame_trans hf1 (pFrame_trans (ih _ _ _ hq) (ih _ _ _ h))
      next s1 hp =>
        split at h
        next op s2 hp2 =>
          have hf1 : pFrame s s2 := by
            have := pmatch_frame s "OP" (some "-"); rwa [hp2] at this
          cases hq : expr_run fuel .mulDivC s2 with
          | none => rw [hq] at h; cases h
          | some q =>
            rw [hq] at h
            simp only [Option.some_bind] at h
            exact pFrame_trans hf1 (pFrame_trans (ih _ _ _ hq) (ih _ _ _ h))
        next s2 hp2 =>
          injection h with h'
          subst h'
          exact pFrame_rfl s
    | mulDivC =>
      simp only [expr_run] at h
      cases hq : expr_run fuel .factorC s with
      | none => rw [hq] at h; cases h
      | some q =>
        rw [hq] at h
        simp only [Option.some_bind] at h
        exact pFrame_trans (ih _ _ _ hq) (ih _ _ _ h)
    | mulCont node =>
      simp only [expr_run] at h
      split at h
      next op s1 hp =>
        have hf1 : pFrame s s1 := by
          have := pmatch_frame s "OP" (some "*"); rwa [hp] at this
        cases hq : expr_run fuel .factorC s1 with
        | none => rw [hq] at h; cases h
        | some q =>
          rw [hq] at h
          simp only [Option.some_bind] at h
          exact pFrame_trans hf1 (pFrame_trans (ih _ _ _ hq) (ih _ _ _ h))
      next s1 hp =>
        split at h
        next op s2 hp2 =>
          have hf1 : pFrame s s2 := by
            have := pmatch_frame s "OP" (some "/"); rwa [hp2] at this
          cases hq : expr_run fuel .factorC s2 with
          | none => rw [hq] at h; cases h
          | some q =>
            rw [hq] at h
            simp only [Option.some_bind] at h
            exact pFrame_trans hf1 (pFrame_trans (ih _ _ _ hq) (ih _ _ _ h))
        next s2 hp2 =>
          injection h with h'
          subst h'
          exact pFrame_rfl s
    | factorC =>
      simp only [expr_run] at h
      split at h
      next tok htok =>
        by_cases h1 : tok.type = "NUM" ∨ tok.type = "ID"
        · rw [if_pos h1] at h
          injection h with h'
          subst h'
          exact ⟨rfl, rfl, rfl, Nat.le_succ _⟩
        · rw [if_neg h1] at h
          by_cases h2 : tok.type = "LPAREN"
          · rw [if_pos h2] at h
            cases hq : expr_run fuel .exprC (pmatch s "LPAREN" none).2 with
            | none => rw [hq] at h; cases h
            | some q =>
              rw [hq] at h
              simp only [Option.map_some'] at h
              injection h with h'
              subst h'
              exact pFrame_trans (pmatch_frame s "LPAREN" none)
                (pFrame_trans (ih _ _ _ hq) (pmatch_frame q.2 "RPAREN" none))
          · rw [if_neg h2] at h
            injection h with h'
            subst h'
            exact pFrame_rfl s
      next htok =>
        injection h with h'
        subst h'
        exact pFrame_rfl s

/-- Fuel that suffices for each expression-grammar procedure, as a function
of the number of unconsumed tokens. -/
def needFuel : ECtx → Nat → Nat
  | .factorC, m => 6 * m + 1
  | .mulCont _, m => 6 * m + 2
  | .mulDivC, m => 6 * m + 3
  | .addCont _, m => 6 * m + 4
  | .addSubC, m => 6 * m + 5
  | .exprC, m => 6 * m + 6

/-- The expression grammar cannot run out of fuel at or above `needFuel`:
every loop iteration and every parenthesis recursion first consumes a
token. -/
theorem expr_run_isSome :
    ∀ fuel c s, needFuel c (s.tokens.length - s.pos) ≤ fuel →
      (expr_run fuel c s).isSome := by
  intro fuel
  induction fuel with
  | zero => intro c s h; cases c <;> simp [needFuel] at h
  | succ fuel ih =>
    intro c s h
    cases c with
    | exprC =>
      simp only [needFuel] at h
      simp only [expr_run]
      exact ih .addSubC s (by simp only [needFuel]; omega)
    | addSubC =>
      simp only [needFuel] at h
      simp only [expr_run]
      have h1 := ih .mulDivC s (by simp only [needFuel]; omega)
      obtain ⟨q, hq⟩ := Option.isSome_iff_exists.mp h1
      rw [hq]
      simp only [Option.some_bind]
      have hf := expr_run_frame fuel .mulDivC s q hq
      apply ih (.addCont q.1) q.2
      simp only [needFuel]
      rw [hf.1]
      have := hf.2.2.2
      omega
    | addCont node =>
      simp only [needFuel] at h
      simp only [expr_run]
      split
      next op s1 hp =>
        have hlt := pmatch_pos_lt hp
        have hs1t : s1.tokens = s.tokens := by rw [(pmatch_eq_some hp).1]
        have hs1p : s1.pos = s.pos + 1 := by rw [(pmatch_eq_some hp).1]
        have h1 := ih .mulDivC s1 (by simp only [needFuel]; rw [hs1t, hs1p]; omega)
        obtain ⟨q, hq⟩ := Option.isSome_iff_exists.mp h1
        rw [hq]
        simp only [Option.some_bind]
        have hf := expr_run_frame fuel .mulDivC s1 q hq
        apply ih (.addCont _) q.2
        simp only [needFuel]
        rw [hf.1, hs1t]
        have h2 := hf.2.2.2
        rw [hs1p] at h2
        omega
      next s1 hp =>
        split
        next op s2 hp2 =>
          have hlt := pmatch_pos_lt hp2
          have hs2t : s2.tokens = s.tokens := by rw [(pmatch_eq_some hp2).1]
          have hs2p : s2.pos = s.pos + 1 := by rw [(pmatch_eq_some hp2).1]
          have h1 := ih .mulDivC s2 (by simp only [needFuel]; rw [hs2t, hs2p]; omega)
          obtain ⟨q, hq⟩ := Option.isSome_iff_exists.mp h1
          rw [hq]
          simp only [Option.some_bind]
          have hf := expr_run_frame fuel .mulDivC s2 q hq
          apply ih (.addCont _) q.2
          simp only [needFuel]
          rw [hf.1, hs2t]
          have h2 := hf.2.2.2
          rw [hs2p] at h2
          omega
        next s2 hp2 => simp
    | mulDivC =>
      simp only [needFuel] at h
      simp only [expr_run]
      have h1 := ih .factorC s (by simp only [needFuel]; omega)
      obtain ⟨q, hq⟩ := Option.isSome_iff_exists.mp h1
      rw [hq]
      simp only [Option.some_bind]
      have hf := expr_run_frame fuel .factorC s q hq
      apply ih (.mulCont q.1) q.2
      simp only [needFuel]
      rw [hf.1]
      have := hf.2.2.2
      omega
    | mulCont node =>
      simp only [needFuel] at h
      simp only [expr_run]
      split
      next op s1 hp =>
        have hlt := pmatch_pos_lt hp
        have hs1t : s1.tokens = s.tokens := by rw [(pmatch_eq_some hp).1]
        have hs1p : s1.pos = s.pos + 1 := by rw [(pmatch_eq_some hp).1]
        have h1 := ih .factorC s1 (by simp only [needFuel]; rw [hs1t, hs1p]; omega)
        obtain ⟨q, hq⟩ := Option.isSome_iff_exists.mp h1
        rw [hq]
        simp only [Option.some_bind]
        have hf := expr_run_frame fuel .factorC s1 q hq
        apply ih (.mulCont _) q.2
        simp only [needFuel]
        rw [hf.1, hs1t]
        have h2 := hf.2.2.2
        rw [hs1p] at h2
        omega
      next s1 hp =>
        split
        next op s2 hp2 =>
          have hlt := pmatch_pos_lt hp2
          have hs2t : s2.tokens = s.tokens := by rw [(pmatch_eq_some hp2).1]
          have hs2p : s2.pos = s.pos + 1 := by rw [(pmatch_eq_some hp2).1]
          have h1 := ih .factorC s2 (by simp only [needFuel]; rw [hs2t, hs2p]; omega)
          obtain ⟨q, hq⟩ := Option.isSome_iff_exists.mp h1
          rw [hq]
          simp only [Option.some_bind]
          have hf := expr_run_frame fuel .factorC s2 q hq
          apply ih (.mulCont _) q.2
          simp only [needFuel]
          rw [hf.1, hs2t]
          have h2 := hf.2.2.2
          rw [hs2p] at h2
          omega
        next s2 hp2 => simp
    | factorC =>
      simp only [needFuel] at h
      simp only [expr_run]
      split
      next tok htok =>
        have hlt := getElem?_some_lt htok
        by_cases h1 : tok.type = "NUM" ∨ tok.type = "ID"
        · rw [if_pos h1]; simp
        · rw [if_neg h1]
          by_cases h2 : tok.type = "LPAREN"
          · rw [if_pos h2]
            rw [pmatch_hit htok h2]
            have h3 := ih .exprC { s with pos := s.pos + 1 }
              (by show 6 * (s.tokens.length - (s.pos + 1)) + 6 ≤ fuel; omega)
            obtain ⟨q, hq⟩ := Option.isSome_iff_exists.mp h3
            rw [hq]
            simp
          · rw [if_neg h2]; simp
      next htok => simp

/-- Frame of a `pmatch` given its result equation. -/
theorem pmatch_fr_of_eq {s : PState} {ty : String} {v : Option String}
    {o : Option Token} {s1 : PState} (hp : pmatch s ty v = (o, s1)) : pFrame s s1 := by
  have := pmatch_frame s ty v
  rwa [hp] at this

/-- Helper `pmatch` with a value constraint succeeds on a matching current token. -/
theorem pmatch_hit2 {s : PState} {tok : Token} {ty w : String}
    (h : s.tokens[s.pos]? = some tok) (hty : tok.type = ty) (hv : tok.value = w) :
    pmatch s ty (some w) = (some tok, { s with pos := s.pos + 1 }) := by
  unfold pmatch
  rw [h]
  simp [hty, hv]

/-- Function `delim_check` keeps tokens and AST, and never moves the cursor back. -/
theorem delim_check_fr (s : PState) :
    (delim_check s).tokens = s.tokens ∧ (delim_check s).ast = s.ast ∧
      s.pos ≤ (delim_check s).pos := by
  unfold delim_check
  split
  next t s1 hp =>
    have hf := pmatch_fr_of_eq hp
    exact ⟨hf.1, hf.2.1, hf.2.2.2⟩
  next s1 hp =>
    have hf := pmatch_fr_of_eq hp
    exact ⟨hf.1, hf.2.1, hf.2.2.2⟩

/-- The expression entry point succeeds at `exprFuel`. -/
theorem expression_isSome (s : PState) : (expression (exprFuel s) s).isSome := by
  unfold expression exprFuel
  apply expr_run_isSome
  simp only [needFuel]
  omega

/-- Frame of the expression entry point. -/
theorem expression_fr {fuel : Nat} {s : PState} {p : PExpr × PState}
    (h : expression fuel s = some p) : pFrame s p.2 :=
  expr_run_frame fuel .exprC s p h

/-- The assignment tail of a generic statement never runs out of fuel. -/
theorem stmt_after_decl_isSome (ty idv : String) (s : PState) :
    (stmt_after_decl ty idv s).isSome := by
  unfold stmt_after_decl
  split
  next s1 hp => simp
  next t s1 hp =>
    have hfr := pmatch_fr_of_eq hp
    have h1 : (expression (exprFuel s1) s1).isSome := by
      rw [show exprFuel s1 = exprFuel s by unfold exprFuel; rw [hfr.1]] at *
      unfold expression exprFuel
      apply expr_run_isSome
      simp only [needFuel]
      rw [hfr.1]
      omega
    obtain ⟨p, hp2⟩ := Option.isSome_iff_exists.mp h1
    rw [hp2]
    simp only [Option.some_bind]
    split <;> simp

/-- The assignment tail keeps the token list and never moves back. -/
theorem stmt_after_decl_fr {ty idv : String} {s s' : PState}
    (h : stmt_after_decl ty idv s = some s') :
    s'.tokens = s.tokens ∧ s.pos ≤ s'.pos := by
  unfold stmt_after_decl at h
  split at h
  next s1 hp =>
    injection h with h'
    subst h'
    have hf := pmatch_fr_of_eq hp
    have hd := delim_check_fr s1
    exact ⟨hd.1.trans hf.1, hf.2.2.2.trans hd.2.2⟩
  next t s1 hp =>
    have hf := pmatch_fr_of_eq hp
    cases hq : expression (exprFuel s1) s1 with
    | none => rw [hq] at h; cases h
    | some p =>
      rw [hq] at h
      simp only [Option.some_bind] at h
      have he := expression_fr hq
      split at h
      · injection h with h'
        subst h'
        exact ⟨he.1.trans hf.1, hf.2.2.2.trans he.2.2.2⟩
      · injection h with h'
        subst h'
        have hd := delim_check_fr { p.2 with ast := p.2.ast ++ [.assign_expr ty idv p.1] }
        refine ⟨hd.1.trans (he.1.trans hf.1), hf.2.2.2.trans (he.2.2.2.trans hd.2.2)⟩

/-- Function `statement` always returns (its only recursion is the fueled
expression grammar at sufficient fuel). -/
theorem statement_isSome (s : PState) : (statement s).isSome := by
  unfold statement
  split
  next tt s1 hp1 =>
    split
    next it s2 hp2 =>
      split
      · split
        next _ s3 hp3 =>
          split
          next s4 hp4 => simp
          next st s4 hp4 =>
            split
            next s5 hp5 => simp
            next _ s5 hp5 => exact stmt_after_decl_isSome _ _ _
        next s3 hp3 => exact stmt_after_decl_isSome _ _ _
      · simp

/-- Function `statement` keeps the token list and strictly advances the cursor:
either the leading `KEYWORD` was consumed, or the error path skips one
token explicitly. -/
theorem statement_fr {s s' : PState} (h : statement s = some s') :
    s'.tokens = s.tokens ∧ s.pos < s'.pos := by
  unfold statement at h
  split at h
  next tt0 s1 hp1 =>
  split at h
  next it0 s2 hp2 =>
  have hf1 := pmatch_fr_of_eq hp1
  have hf2 := pmatch_fr_of_eq hp2
  split at h
  next tt it =>
    have hs1 : s1.pos = s.pos + 1 := by rw [(pmatch_eq_some hp1).1]
    split at h
    next _ s3 hp3 =>
      have hf3 := pmatch_fr_of_eq hp3
      split at h
      next s4 hp4 =>
        have hf4 := pmatch_fr_of_eq hp4
        injection h with h'
        subst h'
        refine ⟨?_, ?_⟩
        · show s4.tokens = s.tokens
          rw [hf4.1, hf3.1, hf2.1, hf1.1]
        · show s.pos < s4.pos
          have h2 := hf2.2.2.2
          have h3 := hf3.2.2.2
          have h4 := hf4.2.2.2
          omega
      next st s4 hp4 =>
        have hf4 := pmatch_fr_of_eq hp4
        split at h
        next s5 hp5 =>
          have hf5 := pmatch_fr_of_eq hp5
          injection h with h'
          subst h'
          refine ⟨?_, ?_⟩
          · show s5.tokens = s.tokens
            rw [hf5.1, hf4.1, hf3.1, hf2.1, hf1.1]
          · show s.pos < s5.pos
            have h2 := hf2.2.2.2
            have h3 := hf3.2.2.2
            have h4 := hf4.2.2.2
            have h5 := hf5.2.2.2
            omega
        next _ s5 hp5 =>
          have hf5 := pmatch_fr_of_eq hp5
          have hsd := stmt_after_decl_fr h
          have ht : s'.tokens = s5.tokens := hsd.1
          have hp : s5.pos ≤ s'.pos := hsd.2
          refine ⟨?_, ?_⟩
          · rw [ht, hf5.1, hf4.1, hf3.1, hf2.1, hf1.1]
          · have h2 := hf2.2.2.2
            have h3 := hf3.2.2.2
            have h4 := hf4.2.2.2
            have h5 := hf5.2.2.2
            omega
    next s3 hp3 =>
      have hf3 := pmatch_fr_of_eq hp3
      have hsd := stmt_after_decl_fr h
      have ht : s'.tokens = s3.tokens := hsd.1
      have hp : s3.pos ≤ s'.pos := hsd.2
      refine ⟨?_, ?_⟩
      · rw [ht, hf3.1, hf2.1, hf1.1]
      · have h2 := hf2.2.2.2
        have h3 := hf3.2.2.2
        omega
  next hne =>
    injection h with h'
    subst h'
    refine ⟨?_, ?_⟩
    · show s2.tokens = s.tokens
      rw [hf2.1, hf1.1]
    · show s.pos < s2.pos + 1
      have h1 := hf1.2.2.2
      have h2 := hf2.2.2.2
      omega

/-- The printf tail keeps tokens and never moves the cursor back; the AST
either gains one `printf` node or nothing. -/
theorem printf_after_kw_fr (s0 : PState) :
    (printf_after_kw s0).tokens = s0.tokens ∧ s0.pos ≤ (printf_after_kw s0).pos := by
  unfold printf_after_kw
  split
  next s1 hp1 =>
    have hf1 := pmatch_fr_of_eq hp1
    exact ⟨hf1.1, hf1.2.2.2⟩
  next _ s1 hp1 =>
    have hf1 := pmatch_fr_of_eq hp1
    split
    next s2 hp2 =>
      have hf2 := pmatch_fr_of_eq hp2
      exact ⟨hf2.1.trans hf1.1, hf1.2.2.2.trans hf2.2.2.2⟩
    next str_tok s2 hp2 =>
      have hf2 := pmatch_fr_of_eq hp2
      split
      next s3 hp3 =>
        have hf3 := pmatch_fr_of_eq hp3
        exact ⟨hf3.1.trans (hf2.1.trans hf1.1),
               hf1.2.2.2.trans (hf2.2.2.2.trans hf3.2.2.2)⟩
      next _ s3 hp3 =>
        have hf3 := pmatch_fr_of_eq hp3
        split
        next s4 hp4 =>
          have hf4 := pmatch_fr_of_eq hp4
          exact ⟨hf4.1.trans (hf3.1.trans (hf2.1.trans hf1.1)),
                 hf1.2.2.2.trans (hf2.2.2.2.trans (hf3.2.2.2.trans hf4.2.2.2))⟩
        next _ s4 hp4 =>
          have hf4 := pmatch_fr_of_eq hp4
          exact ⟨hf4.1.trans (hf3.1.trans (hf2.1.trans hf1.1)),
                 hf1.2.2.2.trans (hf2.2.2.2.trans (hf3.2.2.2.trans hf4.2.2.2))⟩

/-- On a current `printf` keyword token, `printf_statement` keeps tokens
and strictly advances the cursor (the keyword is consumed). -/
theorem printf_statement_fr {s : PState} {tok : Token}
    (htok : s.tokens[s.pos]? = some tok) (hty : tok.type = "KEYWORD")
    (hv : tok.value = "printf") :
    (printf_statement s).tokens = s.tokens ∧ s.pos < (printf_statement s).pos := by
  unfold printf_statement
  rw [pmatch_hit2 htok hty hv]
  show (printf_after_kw { s with pos := s.pos + 1 }).tokens = s.tokens ∧
    s.pos < (printf_after_kw { s with pos := s.pos + 1 }).pos
  have hk := printf_after_kw_fr { s with pos := s.pos + 1 }
  have h2 : s.pos + 1 ≤ (printf_after_kw { s with pos := s.pos + 1 }).pos := hk.2
  exact ⟨hk.1, by omega⟩

/-- The function-body loop keeps tokens and never moves the cursor back. -/
theorem fn_body_fr : ∀ fuel (s s' : PState), fn_body fuel s = some s' →
    s'.tokens = s.tokens ∧ s.pos ≤ s'.pos := by
  intro fuel
  induction fuel with
  | zero => intro s s' h; simp [fn_body] at h
  | succ fuel ih =>
    intro s s' h
    simp only [fn_body] at h
    split at h
    next htok =>
      injection h with h'
      subst h'
      exact ⟨rfl, Nat.le_refl _⟩
    next token htok =>
      split at h
      · injection h with h'
        subst h'
        exact ⟨rfl, Nat.le_refl _⟩
      · split at h
        next hkw =>
          have hpf := printf_statement_fr htok hkw.1 hkw.2
          have hrec := ih _ _ h
          exact ⟨hrec.1.trans hpf.1, Nat.le_of_lt (Nat.lt_of_lt_of_le hpf.2 hrec.2)⟩
        next hkw =>
          cases hq : statement s with
          | none => rw [hq] at h; cases h
          | some s2 =>
            rw [hq] at h
            simp only [Option.some_bind] at h
            have hst := statement_fr hq
            have hrec := ih _ _ h
            exact ⟨hrec.1.trans hst.1, Nat.le_of_lt (Nat.lt_of_lt_of_le hst.2 hrec.2)⟩

/-- The function-body loop cannot run out of fuel above the number of
unconsumed tokens: every iteration strictly advances the cursor. -/
theorem fn_body_isSome : ∀ fuel (s : PState), s.tokens.length - s.pos < fuel →
    (fn_body fuel s).isSome := by
  intro fuel
  induction fuel with
  | zero => intro s h; omega
  | succ fuel ih =>
    intro s h
    simp only [fn_body]
    split
    next htok => simp
    next token htok =>
      have hlt := getElem?_some_lt htok
      split
      · simp
      · split
        next hkw =>
          have hpf := printf_statement_fr htok hkw.1 hkw.2
          apply ih
          rw [hpf.1]
          omega
        next hkw =>
          obtain ⟨s2, hq⟩ := Option.isSome_iff_exists.mp (statement_isSome s)
          rw [hq]
          simp only [Option.some_bind]
          have hst := statement_fr hq
          apply ih
          rw [hst.1]
          omega

/-- The post-name part of a function definition always returns, keeps
tokens, and never moves the cursor back. -/
theorem fn_def_body_fr {s s' : PState} (h : fn_def_body s = some s') :
    s'.tokens = s.tokens ∧ s.pos ≤ s'.pos := by
  unfold fn_def_body at h
  split at h
  next _ s3 hp3 =>
  split at h
  next _ s4 hp4 =>
  have hf3 := pmatch_fr_of_eq hp3
  have hf4 := pmatch_fr_of_eq hp4
  split at h
  next s5 hp5 =>
    have hf5 := pmatch_fr_of_eq hp5
    injection h with h'
    subst h'
    refine ⟨?_, ?_⟩
    · show s5.tokens = s.tokens
      rw [hf5.1, hf4.1, hf3.1]
    · show s.pos ≤ s5.pos
      have h3 := hf3.2.2.2
      have h4 := hf4.2.2.2
      have h5 := hf5.2.2.2
      omega
  next _ s5 hp5 =>
    have hf5 := pmatch_fr_of_eq hp5
    cases hq : fn_body (s5.tokens.length + 1) s5 with
    | none => rw [hq] at h; cases h
    | some s6 =>
      rw [hq] at h
      simp only [Option.some_bind] at h
      have hb := fn_body_fr _ _ _ hq
      split at h
      next _ s7 hp7 =>
        have hf7 := pmatch_fr_of_eq hp7
        injection h with h'
        subst h'
        refine ⟨?_, ?_⟩
        · rw [hf7.1, hb.1, hf5.1, hf4.1, hf3.1]
        · have h3 := hf3.2.2.2
          have h4 := hf4.2.2.2
          have h5 := hf5.2.2.2
          have h6 := hb.2
          have h7 := hf7.2.2.2
          omega
      next s7 hp7 =>
        have hf7 := pmatch_fr_of_eq hp7
        injection h with h'
        subst h'
        refine ⟨?_, ?_⟩
        · show s7.tokens = s.tokens
          rw [hf7.1, hb.1, hf5.1, hf4.1, hf3.1]
        · show s.pos ≤ s7.pos
          have h3 := hf3.2.2.2
          have h4 := hf4.2.2.2
          have h5 := hf5.2.2.2
          have h6 := hb.2
          have h7 := hf7.2.2.2
          omega

/-- The post-name part of a function definition always returns. -/
theorem fn_def_body_isSome (s : PState) : (fn_def_body s).isSome := by
  unfold fn_def_body
  split
  next _ s3 hp3 =>
  split
  next _ s4 hp4 =>
  split
  next s5 hp5 => simp
  next _ s5 hp5 =>
    have hb := fn_body_isSome (s5.tokens.length + 1) s5 (by omega)
    obtain ⟨s6, hq⟩ := Option.isSome_iff_exists.mp hb
    rw [hq]
    simp only [Option.some_bind]
    split <;> simp

/-- Function `function_definition` always returns. -/
theorem function_definition_isSome (s : PState) : (function_definition s).isSome := by
  unfold function_definition
  split
  next _ s1 hp1 =>
  split
  next _ s2 hp2 => exact fn_def_body_isSome s2
  next s2 hp2 => exact fn_def_body_isSome _

/-- On a current `KEYWORD` token, `function_definition` keeps tokens and
strictly advances the cursor (the return type is consumed). -/
theorem function_definition_fr {s s' : PState} {tok : Token}
    (htok : s.tokens[s.pos]? = some tok) (hty : tok.type = "KEYWORD")
    (h : function_definition s = some s') :
    s'.tokens = s.tokens ∧ s.pos < s'.pos := by
  unfold function_definition at h
  split at h
  next o s1 hp1 =>
  have hps : (some tok, ({ s with pos := s.pos + 1 } : PState)) = (o, s1) :=
    (pmatch_hit htok hty).symm.trans hp1
  have hs1 : s1 = { s with pos := s.pos + 1 } := by
    injection hps with h1 h2
    exact h2.symm
  have hs1t : s1.tokens = s.tokens := by rw [hs1]
  have hs1p : s1.pos = s.pos + 1 := by rw [hs1]
  split at h
  next _ s2 hp2 =>
    have hf2 := pmatch_fr_of_eq hp2
    have hb := fn_def_body_fr h
    refine ⟨?_, ?_⟩
    · rw [hb.1, hf2.1, hs1t]
    · have h2 := hf2.2.2.2
      have h3 := hb.2
      omega
  next s2 hp2 =>
    have hf2 := pmatch_frame s1 "ID" none
    have hb := fn_def_body_fr h
    refine ⟨?_, ?_⟩
    · rw [hb.1, hf2.1, hs1t]
    · have h2 := hf2.2.2.2
      have h3 := hb.2
      omega

/-- The top-level parser loop cannot run out of fuel above the number of
unconsumed tokens: every dispatch branch strictly advances the cursor. -/
theorem parse_loop_isSome : ∀ fuel (s : PState), s.tokens.length - s.pos < fuel →
    (parse_loop fuel s).isSome := by
  intro fuel
  induction fuel with
  | zero => intro s h; omega
  | succ fuel ih =>
    intro s h
    simp only [parse_loop]
    split
    next htok => simp
    next token htok =>
      have hlt := getElem?_some_lt htok
      split
      next hinc =>
        apply ih
        simp only
        omega
      next hninc =>
        split
        next hkw =>
          split
          next hla =>
            obtain ⟨s2, hq⟩ := Option.isSome_iff_exists.mp (function_definition_isSome s)
            rw [hq]
            simp only [Option.some_bind]
            have hfr := function_definition_fr htok hkw hq
            apply ih
            rw [hfr.1]
            omega
          next hla =>
            split
            next hpf =>
              have hpr := printf_statement_fr htok hkw hpf
              apply ih
              rw [hpr.1]
              omega
            next hpf =>
              obtain ⟨s2, hq⟩ := Option.isSome_iff_exists.mp (statement_isSome s)
              rw [hq]
              simp only [Option.some_bind]
              have hst := statement_fr hq
              apply ih
              rw [hst.1]
              omega
        next hkw =>
          obtain ⟨s2, hq⟩ := Option.isSome_iff_exists.mp (statement_isSome s)
          rw [hq]
          simp only [Option.some_bind]
          have hst := statement_fr hq
          apply ih
          rw [hst.1]
          omega

/-- Claim C5: `Parser.parse` terminates on every finite token sequence.
In this embedding the driver loop, the function-body loop and the
expression grammar all run on explicit fuel; this theorem shows the fuel
`tokens.length + 1` used by `Parser.parse` can never be exhausted, because
on every path — error paths included — the cursor strictly advances (the
single-token skip in generic-statement failure, or at least one consumed
token in every other construct), so the parse always completes. -/
theorem c5_parse_terminates : ∀ tokens : List Token, (Parser.parse tokens).isSome := by
  intro tokens
  unfold Parser.parse
  have h := parse_loop_isSome (tokens.length + 1) ⟨tokens, 0, [], []⟩
    (by show tokens.length - 0 < tokens.length + 1; omega)
  obtain ⟨r, hr⟩ := Option.isSome_iff_exists.mp h
  rw [hr]
  simp

/-! ## ICG lemmas: temporary allocation -/

/-- Unfolded specification of `new_temp`: the counter is incremented by
exactly one and the returned name is `tempName` of the new counter. -/
theorem new_temp_spec (g : IC) :
    new_temp g = (tempName (g.temp_count + 1), ⟨g.code, g.temp_count + 1⟩) := rfl

/-- Allocation trace of `handle_expr`: the counter never decreases, one
line is emitted per allocation, and the `j`-th new line defines the
temporary `tempName (initial counter + j + 1)` — consecutive, strictly
increasing, never-reused names. -/
theorem handle_expr_trace :
    ∀ (e : PExpr) (g : IC) (r : String) (g' : IC), handle_expr e g = some (r, g') →
      g.temp_count ≤ g'.temp_count ∧
      ∃ lines, g'.code = g.code ++ lines ∧
        lines.length = g'.temp_count - g.temp_count ∧
        ∀ j, j < lines.length →
          ∃ rest, lines[j]? = some (tempName (g.temp_count + j + 1) ++ " = " ++ rest) := by
  intro e
  induction e with
  | enone => intro g r g' h; cases h
  | leaf v =>
    intro g r g' h
    unfold handle_expr at h
    injection h with h'
    obtain ⟨h1, h2⟩ := Prod.mk.injEq .. ▸ h'
    subst h2
    refine ⟨Nat.le_refl _, [], by simp, by simp, by intro j hj; simp at hj⟩
  | binop op l r ihl ihr =>
    intro g rr g' h
    unfold handle_expr at h
    cases hl : handle_expr l g with
    | none => rw [hl] at h; cases h
    | some lv =>
      rw [hl] at h
      simp only [Option.some_bind] at h
      cases hr : handle_expr r lv.2 with
      | none => rw [hr] at h; cases h
      | some rv =>
        rw [hr] at h
        simp only [Option.some_bind] at h
        injection h with h'
        obtain ⟨h1, h2⟩ := Prod.mk.injEq .. ▸ h'
        obtain ⟨hml, L, hLc, hLl, hLj⟩ := ihl g lv.1 lv.2 (by rw [hl])
        obtain ⟨hmr, R, hRc, hRl, hRj⟩ := ihr lv.2 rv.1 rv.2 (by rw [hr])
        have hg' : g' = ⟨rv.2.code ++
            [tempName (rv.2.temp_count + 1) ++ " = " ++ lv.1 ++ " " ++ op ++ " " ++ rv.1],
            rv.2.temp_count + 1⟩ := by
          rw [← h2]
          rfl
        subst hg'
        refine ⟨by simp only; omega, L ++ (R ++
          [tempName (rv.2.temp_count + 1) ++ " = " ++ lv.1 ++ " " ++ op ++ " " ++ rv.1]),
          ?_, ?_, ?_⟩
        · show rv.2.code ++ _ = _
          rw [hRc, hLc]
          simp [List.append_assoc]
        · simp only [List.length_append, List.length_cons, List.length_nil]
          omega
        · intro j hj
          simp only [List.length_append, List.length_cons, List.length_nil] at hj
          by_cases hjl : j < L.length
          · obtain ⟨rest, hrest⟩ := hLj j hjl
            refine ⟨rest, ?_⟩
            rw [List.getElem?_append, if_pos hjl, hrest]
          · by_cases hjr : j < L.length + R.length
            · obtain ⟨rest, hrest⟩ := hRj (j - L.length) (by omega)
              refine ⟨rest, ?_⟩
              rw [List.getElem?_append, if_neg (by omega),
                  List.getElem?_append, if_pos (by omega)]
              have hc : g.temp_count + j + 1 = lv.2.temp_count + (j - L.length) + 1 := by
                omega
              rw [hc]
              exact hrest
            · have hjeq : j = L.length + R.length := by omega
              refine ⟨lv.1 ++ " " ++ op ++ " " ++ rv.1, ?_⟩
              rw [List.getElem?_append, if_neg (by omega),
                  List.getElem?_append, if_neg (by omega)]
              have hz : j - L.length - R.length = 0 := by omega
              rw [hz]
              simp only [List.getElem?_cons_zero, Option.some.injEq]
              have hcnt : rv.2.temp_count + 1 = g.temp_count + j + 1 := by omega
              rw [hcnt]
              simp only [String.append_assoc]

/-- The statement loop of the ICG never decreases the temporary counter. -/
theorem generate_go_temp_mono :
    ∀ (ast : List Stmt) (g g' : IC), generate_go ast g = some g' →
      g.temp_count ≤ g'.temp_count := by
  intro ast
  induction ast with
  | nil =>
    intro g g' h
    unfold generate_go at h
    injection h with h'
    subst h'
    exact Nat.le_refl _
  | cons st rest ih =>
    intro g g' h
    cases st with
    | include_ txt => simp only [generate_go] at h; have hm := ih _ _ h; exact hm
    | declare ty n => simp only [generate_go] at h; have hm := ih _ _ h; exact hm
    | declare_array ty n sz => simp only [generate_go] at h; have hm := ih _ _ h; exact hm
    | printf sv => simp only [generate_go] at h; have hm := ih _ _ h; exact hm

    | assign_expr ty n e =>
      simp only [generate_go] at h
      cases he : handle_expr e g with
      | none => rw [he] at h; cases h
      | some rv =>
        rw [he] at h
        simp only [Option.some_bind] at h
        have hm := (handle_expr_trace e g rv.1 rv.2 (by rw [he])).1
        have hm2 := ih _ _ h
        exact Nat.le_trans hm hm2

/-- Claim C6: temporary names generated during lowering are `t1, t2, …` in
strictly increasing allocation order and are never reused.  Conjuncts:
`ICG.new_temp` increments the counter by exactly one and returns the name
of the new counter value; `ICG.generate` starts a fresh counter at 0; the
allocation trace of `handle_expr` emits, starting from counter `c`, the
names `tempName (c+1), tempName (c+2), …` consecutively (strictly
increasing, never reused); `tempName 1 = "t1"`; and in any run whose
counter starts at 0 the first allocated name is `t1`. -/
theorem c6_temp_names :
    (∀ g : IC, new_temp g = (tempName (g.temp_count + 1), ⟨g.code, g.temp_count + 1⟩)) ∧
    (∀ ast : List Stmt, ICG.generate ast = (generate_go ast ⟨[], 0⟩).map IC.code) ∧
    (∀ (e : PExpr) (g : IC) (r : String) (g' : IC), handle_expr e g = some (r, g') →
      g.temp_count ≤ g'.temp_count ∧
      ∃ lines, g'.code = g.code ++ lines ∧
        lines.length = g'.temp_count - g.temp_count ∧
        ∀ j, j < lines.length →
          ∃ rest, lines[j]? = some (tempName (g.temp_count + j + 1) ++ " = " ++ rest)) ∧
    tempName 1 = "t1" ∧
    (∀ (e : PExpr) (cs : List String) (r : String) (g' : IC),
      handle_expr e ⟨cs, 0⟩ = some (r, g') → 0 < g'.temp_count →
      ∃ lines rest, g'.code = cs ++ lines ∧
        lines[0]? = some (tempName 1 ++ " = " ++ rest)) := by
  refine ⟨new_temp_spec, fun _ => rfl, handle_expr_trace, rfl, ?_⟩
  intro e cs r g' h hpos
  obtain ⟨hm, lines, hc, hl, hj⟩ := handle_expr_trace e ⟨cs, 0⟩ r g' h
  have hlen : 0 < lines.length := by
    rw [hl]
    show 0 < g'.temp_count - 0
    omega
  obtain ⟨rest, hrest⟩ := hj 0 hlen
  exact ⟨lines, rest, hc, hrest⟩

theorem c6_witness :
    (⟨[], 0⟩ : IC).temp_count ≤ (⟨["t1 = 2 * 3", "t2 = 1 + t1"], 2⟩ : IC).temp_count :=
  (c6_temp_names.2.2.1
    (PExpr.binop "+" (PExpr.leaf "1") (PExpr.binop "*" (PExpr.leaf "2") (PExpr.leaf "3")))
    ⟨[], 0⟩ "t2" ⟨["t1 = 2 * 3", "t2 = 1 + t1"], 2⟩ rfl).1

/-- Claim C3: on the source `"int x; int x;"`, lexing and parsing succeed
with no syntax errors, and the semantic-error list is exactly the single
redeclaration diagnostic for `x` (rendered by the code as
`"Semantic Error: 'x' redeclared"`, the `Semantic Error: ` category prefix
being attached to every semantic diagnostic). -/
theorem c3_redeclared_pipeline :
    analyze_route "int x; int x;" =
      .ok ([⟨"KEYWORD", "int"⟩, ⟨"ID", "x"⟩, ⟨"DELIM", ";"⟩,
            ⟨"KEYWORD", "int"⟩, ⟨"ID", "x"⟩, ⟨"DELIM", ";"⟩],
           [], ["Semantic Error: 'x' redeclared"], ["int x", "int x"]) := rfl

/-- Claim C4: on `"int x = 2 + 3 * 4;"` the pipeline emits exactly the
lines `int x`, `t1 = 3 * 4`, `t2 = 2 + t1`, `x = t2` in that order — the
multiplication is lowered before the addition — and the final ICG state
shows exactly two temporaries were allocated (the counter ends at 2). -/
theorem c4_temporaries_pipeline :
    analyze_route "int x = 2 + 3 * 4;" =
      .ok ([⟨"KEYWORD", "int"⟩, ⟨"ID", "x"⟩, ⟨"OP", "="⟩, ⟨"NUM", "2"⟩,
            ⟨"OP", "+"⟩, ⟨"NUM", "3"⟩, ⟨"OP", "*"⟩, ⟨"NUM", "4"⟩, ⟨"DELIM", ";"⟩],
           [], [], ["int x", "t1 = 3 * 4", "t2 = 2 + t1", "x = t2"]) ∧
    generate_go
      [Stmt.declare "int" "x",
       Stmt.assign_expr "int" "x"
         (PExpr.binop "+" (PExpr.leaf "2") (PExpr.binop "*" (PExpr.leaf "3") (PExpr.leaf "4")))]
      ⟨[], 0⟩ =
      some ⟨["int x", "t1 = 3 * 4", "t2 = 2 + t1", "x = t2"], 2⟩ :=
  ⟨rfl, rfl⟩

/-- Claim C1 counterexample: the parser's own output can crash the ICG.
On the token sequence of `"int x = 5 + ;"` the parser appends an
`assign_expr` whose expression is `('binop', '+', ('leaf','5'), None)` —
the trailing `+` has a missing right operand — with no syntax error, and
`ICG.generate` then raises (`handle_expr` subscripts `None`, modelled as
`none`), so an exception does cross the parser/ICG boundary. -/
theorem c1_counterexample :
    Parser.parse [⟨"KEYWORD", "int"⟩, ⟨"ID", "x"⟩, ⟨"OP", "="⟩,
                  ⟨"NUM", "5"⟩, ⟨"OP", "+"⟩, ⟨"DELIM", ";"⟩] =
      some ([Stmt.declare "int" "x",
             Stmt.assign_expr "int" "x" (PExpr.binop "+" (PExpr.leaf "5") PExpr.enone)], []) ∧
    ICG.generate [Stmt.declare "int" "x",
                  Stmt.assign_expr "int" "x" (PExpr.binop "+" (PExpr.leaf "5") PExpr.enone)] =
      none ∧
    analyze_route "int x = 5 + ;" = .error "'NoneType' object is not subscriptable" :=
  ⟨rfl, rfl, rfl⟩

/-- Claim C9: the pipeline is deterministic and stateless across runs.
Two successive runs of the route body on the same source are the same
value, and the statelessness is visible in the embedding: `Parser.parse`
always starts from a fresh cursor/AST/error state, and `ICG.generate`
always starts from a fresh empty code list with the counter at 0 — no
state survives from one run to the next. -/
theorem c9_deterministic :
    (∀ code : String,
      (analyze_route code, analyze_route code).1 = (analyze_route code, analyze_route code).2) ∧
    (∀ tokens : List Token,
      Parser.parse tokens =
        (parse_loop (tokens.length + 1) ⟨tokens, 0, [], []⟩).map fun s => (s.ast, s.errors)) ∧
    (∀ ast : List Stmt, ICG.generate ast = (generate_go ast ⟨[], 0⟩).map IC.code) :=
  ⟨fun _ => rfl, fun _ => rfl, fun _ => rfl⟩

/-! ## Claim C1 (amended): the ICG is exception-free on total expressions -/

/-- A parsed expression is total when no Python `None` occurs in it. -/
def exprTotal : PExpr → Bool
  | .enone => false
  | .leaf _ => true
  | .binop _ l r => exprTotal l && exprTotal r

/-- A statement whose (possible) expression payload is total. -/
def stmtExprTotal : Stmt → Bool
  | .assign_expr _ _ e => exprTotal e
  | _ => true

/-- Function `handle_expr` cannot raise on a total expression. -/
theorem handle_expr_total : ∀ (e : PExpr) (g : IC), exprTotal e = true →
    (handle_expr e g).isSome := by
  intro e
  induction e with
  | enone => intro g h; cases h
  | leaf v => intro g h; simp [handle_expr]
  | binop op l r ihl ihr =>
    intro g h
    simp only [exprTotal, Bool.and_eq_true] at h
    simp only [handle_expr]
    obtain ⟨lv, hl⟩ := Option.isSome_iff_exists.mp (ihl g h.1)
    rw [hl]
    simp only [Option.some_bind]
    obtain ⟨rv, hr⟩ := Option.isSome_iff_exists.mp (ihr lv.2 h.2)
    rw [hr]
    simp

/-- Function `generate_go` cannot raise when every statement's expression payload is
total. -/
theorem generate_go_total : ∀ (ast : List Stmt) (g : IC),
    ast.all stmtExprTotal = true → (generate_go ast g).isSome := by
  intro ast
  induction ast with
  | nil => intro g h; simp [generate_go]
  | cons st rest ih =>
    intro g h
    simp only [List.all_cons, Bool.and_eq_true] at h
    cases st with
    | include_ txt => simp only [generate_go]; exact ih _ h.2
    | declare ty n => simp only [generate_go]; exact ih _ h.2
    | declare_array ty n sz => simp only [generate_go]; exact ih _ h.2
    | printf sv => simp only [generate_go]; exact ih _ h.2
    | assign_expr ty n e =>
      simp only [generate_go]
      obtain ⟨rv, he⟩ := Option.isSome_iff_exists.mp
        (handle_expr_total e g (by exact h.1))
      rw [he]
      simp only [Option.some_bind]
      exact ih _ h.2

/-- Claim C1 (amended): for every token sequence, running the
SemanticAnalyzer on the parser's AST raises no exception (`analyze` is
total on the node shapes the parser appends), and the ICG raises none
provided every `assign_expr` the parser appended holds a total expression.
The proviso is necessary: see `c1_counterexample`, where a trailing `+`
with a missing right operand makes `handle_expr` receive `None` and
raise. -/
theorem c1_amended_total_generate :
    ∀ (tokens : List Token) (ast : List Stmt) (errs : List String),
      Parser.parse tokens = some (ast, errs) →
      ast.all stmtExprTotal = true →
      (ICG.generate ast).isSome := by
  intro tokens ast errs hparse htotal
  unfold ICG.generate
  obtain ⟨g', hg⟩ := Option.isSome_iff_exists.mp (generate_go_total ast ⟨[], 0⟩ htotal)
  rw [hg]
  simp

theorem c1_amended_witness :
    (ICG.generate [Stmt.declare "int" "x",
                   Stmt.assign_expr "int" "x" (PExpr.leaf "5")]).isSome :=
  c1_amended_total_generate
    [⟨"KEYWORD", "int"⟩, ⟨"ID", "x"⟩, ⟨"OP", "="⟩, ⟨"NUM", "5"⟩, ⟨"DELIM", ";"⟩]
    [Stmt.declare "int" "x", Stmt.assign_expr "int" "x" (PExpr.leaf "5")]
    [] rfl (by decide)

/-! ## Claim C8: lexical failure on unmatched characters -/

/-- Claim C8 counterexample: the claim quantifies over every source
containing `'@'` at a position matched by no other rule, but the scan can
fail earlier on a different character.  In `"#@"` the `'@'` at index 1 is
matched by no rule other than the catch-all (second conjunct, with the
actual previous character `'#'`), yet tokenization fails at index 0 and
the message names `'#'`, not `'@'`. -/
theorem c8_counterexample :
    Lexer.tokenize "#@" = .error "Unexpected character: #" ∧
    findRule (some '#') '@' [] = ("MISMATCH", 0) ∧
    Lexer.tokenize "#@" ≠ .error "Unexpected character: @" := by
  refine ⟨rfl, rfl, ?_⟩
  intro hcontra
  rw [show Lexer.tokenize "#@" = .error "Unexpected character: #" from rfl] at hcontra
  injection hcontra with h'
  exact absurd h' (by decide)

/-- Claim C8 (amended): whenever the scan loop stands at a position where
no rule other than the single-character catch-all matches, tokenization
fails immediately with `RuntimeError` naming the character at that
position (so the message names `'@'` exactly when `'@'` is the first such
scanned character), and the failure aborts the pipeline before parsing:
the route returns the single error string and none of the four result
lists. -/
theorem c8_amended_lexical_error :
    (∀ (fuel : Nat) (prev : Option Char) (c : Char) (rs : List Char),
      findRule prev c rs = ("MISMATCH", 0) →
      tokenizeAux (fuel + 1) prev (c :: rs) =
        .error ("Unexpected character: " ++ String.mk [c])) ∧
    analyze_route "int @ x;" = .error "Unexpected character: @" := by
  refine ⟨?_, rfl⟩
  intro fuel prev c rs h
  simp [tokenizeAux, h]

theorem c8_witness :
    tokenizeAux 1 none ['@'] = .error ("Unexpected character: " ++ String.mk ['@']) :=
  c8_amended_lexical_error.1 0 none '@' [] rfl

/-! ## Claim C2: when "Invalid expression" is recorded -/

/-- Function `delim_check` either leaves the error list unchanged or appends
exactly the missing-semicolon diagnostic. -/
theorem delim_check_errors (s : PState) :
    (delim_check s).errors = s.errors ∨
    (delim_check s).errors = s.errors ++ ["Syntax Error: Missing semicolon"] := by
  unfold delim_check
  split
  next t s1 hp =>
    exact Or.inl (pmatch_fr_of_eq hp).2.2.1
  next s1 hp =>
    right
    show s1.errors ++ _ = s.errors ++ _
    rw [(pmatch_fr_of_eq hp).2.2.1]

/-- Claim C2: in a generic statement, after matching `=`, the parser
records `"Invalid expression"` (here with its `Syntax Error: ` category
prefix) if and only if the expression parse yields no node at all
(Python `None`, i.e. `PExpr.enone`); and on the token sequence of
`"int x = 5 + ;"` — a leading factor with a trailing operator and a
missing right operand — no such diagnostic is recorded (the error list
stays empty) and an `assign_expr` node containing the partial expression
is still appended. -/
theorem c2_invalid_expression_iff :
    (∀ (ty idv : String) (s s' : PState), stmt_after_decl ty idv s = some s' →
      (s'.errors = s.errors ++ ["Syntax Error: Invalid expression"] ↔
        ∃ (t : Token) (s1 s2 : PState),
          pmatch s "OP" (some "=") = (some t, s1) ∧
          expression (exprFuel s1) s1 = some (PExpr.enone, s2))) ∧
    Parser.parse [⟨"KEYWORD", "int"⟩, ⟨"ID", "x"⟩, ⟨"OP", "="⟩,
                  ⟨"NUM", "5"⟩, ⟨"OP", "+"⟩, ⟨"DELIM", ";"⟩] =
      some ([Stmt.declare "int" "x",
             Stmt.assign_expr "int" "x" (PExpr.binop "+" (PExpr.leaf "5") PExpr.enone)],
            []) := by
  refine ⟨?_, rfl⟩
  intro ty idv s s' h
  unfold stmt_after_decl at h
  split at h
  next s1 hp =>
    have hs1 := pmatch_eq_none hp
    injection h with h'
    subst h'
    constructor
    · intro hlhs
      exfalso
      rcases delim_check_errors s1 with hd | hd
      · rw [hd, hs1] at hlhs
        have := congrArg List.length hlhs
        simp at this
      · rw [hd, hs1] at hlhs
        have := List.append_cancel_left hlhs
        simp at this
    · rintro ⟨t, s1', s2, hp', -⟩
      rw [hp] at hp'
      cases hp'
  next t0 s1 hp =>
    cases hq : expression (exprFuel s1) s1 with
    | none => rw [hq] at h; cases h
    | some p =>
      rw [hq] at h
      simp only [Option.some_bind] at h
      have hfr1 := pmatch_fr_of_eq hp
      have hfr2 := expression_fr hq
      split at h
      next hpe =>
        injection h with h'
        subst h'
        constructor
        · intro _
          refine ⟨t0, s1, p.2, hp, ?_⟩
          rw [hq, ← hpe]
        · intro _
          show p.2.errors ++ _ = s.errors ++ _
          rw [hfr2.2.2.1, hfr1.2.2.1]
      next hpe =>
        injection h with h'
        subst h'
        constructor
        · intro hlhs
          exfalso
          have hbase : ({ p.2 with ast := p.2.ast ++ [Stmt.assign_expr ty idv p.1] } :
              PState).errors = s.errors := by
            show p.2.errors = s.errors
            rw [hfr2.2.2.1, hfr1.2.2.1]
          rcases delim_check_errors
              { p.2 with ast := p.2.ast ++ [Stmt.assign_expr ty idv p.1] } with hd | hd
          · rw [hd, hbase] at hlhs
            have := congrArg List.length hlhs
            simp at this
          · rw [hd, hbase] at hlhs
            have := List.append_cancel_left hlhs
            simp at this
        · rintro ⟨t, s1', s2, hp', hexp⟩
          exfalso
          rw [hp] at hp'
          injection hp' with h1 h2
          subst h2
          rw [hq] at hexp
          injection hexp with h3
          apply hpe
          rw [h3]

theorem c2_witness :
    (⟨[⟨"OP", "="⟩, ⟨"DELIM", ";"⟩], 1, [],
      ["Syntax Error: Invalid expression"]⟩ : PState).errors =
      (⟨[⟨"OP", "="⟩, ⟨"DELIM", ";"⟩], 0, [], []⟩ : PState).errors ++
        ["Syntax Error: Invalid expression"] :=
  (c2_invalid_expression_iff.1 "int" "x"
      ⟨[⟨"OP", "="⟩, ⟨"DELIM", ";"⟩], 0, [], []⟩
      ⟨[⟨"OP", "="⟩, ⟨"DELIM", ";"⟩], 1, [], ["Syntax Error: Invalid expression"]⟩
      rfl).mpr
    ⟨⟨"OP", "="⟩, ⟨[⟨"OP", "="⟩, ⟨"DELIM", ";"⟩], 1, [], []⟩,
     ⟨[⟨"OP", "="⟩, ⟨"DELIM", ";"⟩], 1, [], []⟩, rfl, rfl⟩

/-- Helper `pmatch` with no value constraint fails exactly when the current token
is absent or of a different type, and then does not move the cursor. -/
theorem pmatch_miss {s : PState} {ty : String}
    (h : ∀ u : Token, s.tokens[s.pos]? = some u → u.type ≠ ty) :
    pmatch s ty none = (none, s) := by
  unfold pmatch
  split
  next u htok => rw [if_neg (fun hc => h u htok hc.1)]
  next htok => rfl

/-- Claim C7: a malformed printf statement appends zero AST nodes and
records exactly one diagnostic, chosen by the first missing element of the
sequence `printf` `(` `STRING` `)` delimiter — `"Expected '('"`,
`"Expected string in printf"`, `"Expected ')' in printf"`,
`"Missing semicolon after printf"` respectively (with their
`Syntax Error: ` category prefix) — and a `Printf` node is appended, with
no diagnostic, exactly when all five elements match. -/
theorem c7_printf_spec :
    ∀ (s : PState) (tok : Token),
      s.tokens[s.pos]? = some tok → tok.type = "KEYWORD" → tok.value = "printf" →
      ((∀ u : Token, s.tokens[s.pos + 1]? = some u → u.type ≠ "LPAREN") →
          printf_statement s =
            ⟨s.tokens, s.pos + 1, s.ast, s.errors ++ ["Syntax Error: Expected '('"]⟩) ∧
      (∀ u1 : Token, s.tokens[s.pos + 1]? = some u1 → u1.type = "LPAREN" →
        ((∀ u : Token, s.tokens[s.pos + 2]? = some u → u.type ≠ "STRING") →
            printf_statement s =
              ⟨s.tokens, s.pos + 2, s.ast,
               s.errors ++ ["Syntax Error: Expected string in printf"]⟩) ∧
        (∀ u2 : Token, s.tokens[s.pos + 2]? = some u2 → u2.type = "STRING" →
          ((∀ u : Token, s.tokens[s.pos + 3]? = some u → u.type ≠ "RPAREN") →
              printf_statement s =
                ⟨s.tokens, s.pos + 3, s.ast,
                 s.errors ++ ["Syntax Error: Expected ')' in printf"]⟩) ∧
          (∀ u3 : Token, s.tokens[s.pos + 3]? = some u3 → u3.type = "RPAREN" →
            ((∀ u : Token, s.tokens[s.pos + 4]? = some u → u.type ≠ "DELIM") →
                printf_statement s =
                  ⟨s.tokens, s.pos + 4, s.ast,
                   s.errors ++ ["Syntax Error: Missing semicolon after printf"]⟩) ∧
            (∀ u4 : Token, s.tokens[s.pos + 4]? = some u4 → u4.type = "DELIM" →
              printf_statement s =
                ⟨s.tokens, s.pos + 5, s.ast ++ [Stmt.printf u2.value], s.errors⟩)))) := by
  intro s tok htok hty hv
  have e1 : printf_statement s =
      printf_after_kw ⟨s.tokens, s.pos + 1, s.ast, s.errors⟩ := by
    unfold printf_statement
    rw [pmatch_hit2 htok hty hv]
  refine ⟨?_, ?_⟩
  · -- no '('
    intro hmiss
    rw [e1]
    have m1 : pmatch (⟨s.tokens, s.pos + 1, s.ast, s.errors⟩ : PState) "LPAREN" none =
        (none, ⟨s.tokens, s.pos + 1, s.ast, s.errors⟩) :=
      pmatch_miss (fun u hu => hmiss u hu)
    unfold printf_after_kw
    split
    next s1 hp =>
      rw [m1] at hp
      injection hp with h1 h2
      rw [← h2]
    next u s1 hp =>
      rw [m1] at hp
      injection hp with h1 h2
      cases h1
  · intro u1 h1 hty1
    have e2 : pmatch (⟨s.tokens, s.pos + 1, s.ast, s.errors⟩ : PState) "LPAREN" none =
        (some u1, ⟨s.tokens, s.pos + 2, s.ast, s.errors⟩) :=
      pmatch_hit h1 hty1
    refine ⟨?_, ?_⟩
    · -- '(' but no STRING
      intro hmiss
      rw [e1]
      have m2 : pmatch (⟨s.tokens, s.pos + 2, s.ast, s.errors⟩ : PState) "STRING" none =
          (none, ⟨s.tokens, s.pos + 2, s.ast, s.errors⟩) :=
        pmatch_miss (fun u hu => hmiss u hu)
      unfold printf_after_kw
      split
      next s1 hp =>
        rw [e2] at hp
        injection hp with hh1 hh2
        cases hh1
      next u s1 hp =>
        rw [e2] at hp
        injection hp with hh1 hh2
        subst hh2
        split
        next s2 hp2 =>
          rw [m2] at hp2
          injection hp2 with hg1 hg2
          rw [← hg2]
        next str_tok s2 hp2 =>
          rw [m2] at hp2
          injection hp2 with hg1 hg2
          cases hg1
    · intro u2 h2 hty2
      have e3 : pmatch (⟨s.tokens, s.pos + 2, s.ast, s.errors⟩ : PState) "STRING" none =
          (some u2, ⟨s.tokens, s.pos + 3, s.ast, s.errors⟩) :=
        pmatch_hit h2 hty2
      refine ⟨?_, ?_⟩
      · -- '(' STRING but no ')'
        intro hmiss
        rw [e1]
        have m3 : pmatch (⟨s.tokens, s.pos + 3, s.ast, s.errors⟩ : PState) "RPAREN" none =
            (none, ⟨s.tokens, s.pos + 3, s.ast, s.errors⟩) :=
          pmatch_miss (fun u hu => hmiss u hu)
        unfold printf_after_kw
        split
        next s1 hp =>
          rw [e2] at hp
          injection hp with hh1 hh2
          cases hh1
        next u s1 hp =>
          rw [e2] at hp
          injection hp with hh1 hh2
          subst hh2
          split
          next s2 hp2 =>
            rw [e3] at hp2
            injection hp2 with hg1 hg2
            cases hg1
          next str_tok s2 hp2 =>
            rw [e3] at hp2
            injection hp2 with hg1 hg2
            subst hg2
            split
            next s3 hp3 =>
              rw [m3] at hp3
              injection hp3 with hk1 hk2
              rw [← hk2]
            next u' s3 hp3 =>
              rw [m3] at hp3
              injection hp3 with hk1 hk2
              cases hk1
      · intro u3 h3 hty3
        have e4 : pmatch (⟨s.tokens, s.pos + 3, s.ast, s.errors⟩ : PState) "RPAREN" none =
            (some u3, ⟨s.tokens, s.pos + 4, s.ast, s.errors⟩) :=
          pmatch_hit h3 hty3
        refine ⟨?_, ?_⟩
        · -- '(' STRING ')' but no delimiter
          intro hmiss
          rw [e1]
          have m4 : pmatch (⟨s.tokens, s.pos + 4, s.ast, s.errors⟩ : PState) "DELIM" none =
              (none, ⟨s.tokens, s.pos + 4, s.ast, s.errors⟩) :=
            pmatch_miss (fun u hu => hmiss u hu)
          unfold printf_after_kw
          split
          next s1 hp =>
            rw [e2] at hp
            injection hp with hh1 hh2
            cases hh1
          next u s1 hp =>
            rw [e2] at hp
            injection hp with hh1 hh2
            subst hh2
            split
            next s2 hp2 =>
              rw [e3] at hp2
              injection hp2 with hg1 hg2
              cases hg1
            next str_tok s2 hp2 =>
              rw [e3] at hp2
              injection hp2 with hg1 hg2
              subst hg2
              split
              next s3 hp3 =>
                rw [e4] at hp3
                injection hp3 with hk1 hk2
                cases hk1
              next u' s3 hp3 =>
                rw [e4] at hp3
                injection hp3 with hk1 hk2
                subst hk2
                split
                next s4 hp4 =>
                  rw [m4] at hp4
                  injection hp4 with hm1 hm2
                  rw [← hm2]
                next u'' s4 hp4 =>
                  rw [m4] at hp4
                  injection hp4 with hm1 hm2
                  cases hm1
        · -- all five elements present
          intro u4 h4 hty4
          rw [e1]
          have e5 : pmatch (⟨s.tokens, s.pos + 4, s.ast, s.errors⟩ : PState) "DELIM" none =
              (some u4, ⟨s.tokens, s.pos + 5, s.ast, s.errors⟩) :=
            pmatch_hit h4 hty4
          unfold printf_after_kw
          split
          next s1 hp =>
            rw [e2] at hp
            injection hp with hh1 hh2
            cases hh1
          next u s1 hp =>
            rw [e2] at hp
            injection hp with hh1 hh2
            subst hh2
            split
            next s2 hp2 =>
              rw [e3] at hp2
              injection hp2 with hg1 hg2
              cases hg1
            next str_tok s2 hp2 =>
              rw [e3] at hp2
              injection hp2 with hg1 hg2
              subst hg2
              injection hg1 with hstr
              subst hstr
              split
              next s3 hp3 =>
                rw [e4] at hp3
                injection hp3 with hk1 hk2
                cases hk1
              next u' s3 hp3 =>
                rw [e4] at hp3
                injection hp3 with hk1 hk2
                subst hk2
                split
                next s4 hp4 =>
                  rw [e5] at hp4
                  injection hp4 with hm1 hm2
                  cases hm1
                next u'' s4 hp4 =>
                  rw [e5] at hp4
                  injection hp4 with hm1 hm2
                  rw [← hm2]

theorem c7_witness :
    printf_statement ⟨[⟨"KEYWORD", "printf"⟩, ⟨"DELIM", ";"⟩], 0, [], []⟩ =
      ⟨[⟨"KEYWORD", "printf"⟩, ⟨"DELIM", ";"⟩], 0 + 1, [],
       [] ++ ["Syntax Error: Expected '('"]⟩ :=
  (c7_printf_spec ⟨[⟨"KEYWORD", "printf"⟩, ⟨"DELIM", ";"⟩], 0, [], []⟩
      ⟨"KEYWORD", "printf"⟩ rfl rfl rfl).1
    (fun u hu => by injection hu with h; rw [← h]; decide)

/-! ## Claim C10: assignment targets are always declared first -/

/-- The declared name of a statement node, when it is a declaration. -/
def declOf : Stmt → Option String
  | .declare _ n => some n
  | .declare_array _ n _ => some n
  | _ => none

/-- Every `assign_expr` in the list sits immediately after a declaration
of the same variable name. -/
def ImmDecl (ast : List Stmt) : Prop :=
  ∀ i t n e, ast[i]? = some (.assign_expr t n e) →
    ∃ j st, i = j + 1 ∧ ast[j]? = some st ∧ declOf st = some n

theorem immdecl_nil : ImmDecl [] := by
  intro i t n e hi
  simp at hi

/-- Appending one non-assignment node preserves the invariant. -/
theorem immdecl_append_one {ast : List Stmt} {st : Stmt} (h : ImmDecl ast)
    (hst : ∀ t n e, st ≠ .assign_expr t n e) : ImmDecl (ast ++ [st]) := by
  intro i t n e hi
  rw [List.getElem?_append] at hi
  split at hi
  next hlt =>
    obtain ⟨j, st', hj, hjget, hdecl⟩ := h i t n e hi
    have hjlt : j < ast.length := getElem?_some_lt hjget
    refine ⟨j, st', hj, ?_, hdecl⟩
    rw [List.getElem?_append, if_pos hjlt]
    exact hjget
  next hge =>
    exfalso
    rcases Nat.lt_or_ge (i - ast.length) 1 with hc | hc
    · have hz : i - ast.length = 0 := by omega
      rw [hz] at hi
      simp at hi
      exact hst t n e hi
    · rw [List.getElem?_eq_none (by simp; omega)] at hi
      cases hi

/-- Appending a declaration immediately followed by an assignment to the
declared name preserves the invariant. -/
theorem immdecl_append_pair {ast : List Stmt} {st : Stmt} {t n : String} {e : PExpr}
    (h : ImmDecl ast) (hdecl : declOf st = some n) :
    ImmDecl (ast ++ [st, .assign_expr t n e]) := by
  intro i t' n' e' hi
  rw [List.getElem?_append] at hi
  split at hi
  next hlt =>
    obtain ⟨j, st', hj, hjget, hd⟩ := h i t' n' e' hi
    have hjlt : j < ast.length := getElem?_some_lt hjget
    refine ⟨j, st', hj, ?_, hd⟩
    rw [List.getElem?_append, if_pos hjlt]
    exact hjget
  next hge =>
    rcases Nat.lt_or_ge (i - ast.length) 1 with hc | hc
    · exfalso
      have hz : i - ast.length = 0 := by omega
      rw [hz] at hi
      simp at hi
      rw [hi] at hdecl
      simp [declOf] at hdecl
    · rcases Nat.lt_or_ge (i - ast.length) 2 with hc2 | hc2
      · have hone : i - ast.length = 1 := by omega
        rw [hone] at hi
        simp at hi
        refine ⟨ast.length, st, by omega, ?_, ?_⟩
        · rw [List.getElem?_append, if_neg (by omega)]
          simp
        · rw [hi.2.1] at hdecl
          exact hdecl
      · exfalso
        rw [List.getElem?_eq_none (by simp; omega)] at hi
        cases hi

/-- A redeclaration diagnostic is never an undeclared-variable diagnostic,
whatever the two names are (they differ at character 16). -/
theorem undecl_ne_redecl (m k : String) : undeclMsg m ≠ redeclMsg k := by
  intro h
  have hd := congrArg String.data h
  have e : ∀ x y : String, (x ++ y).data = x.data ++ y.data := fun _ _ => rfl
  unfold undeclMsg redeclMsg at hd
  rw [e, e, e, e] at hd
  have h16 := congrArg (fun l => l[16]?) hd
  simp only at h16
  rw [List.getElem?_append,
      if_pos (by rw [List.length_append]
                 exact Nat.lt_of_lt_of_le (by decide) (Nat.le_add_right _ _)),
      List.getElem?_append, if_pos (by decide)] at h16
  rw [List.getElem?_append,
      if_pos (by rw [List.length_append]
                 exact Nat.lt_of_lt_of_le (by decide) (Nat.le_add_right _ _)),
      List.getElem?_append, if_pos (by decide)] at h16
  have : ('U' : Char) = '\'' := by
    have hu : ("Semantic Error: Undeclared variable '".data)[16]? = some 'U' := by decide
    have hq : ("Semantic Error: '".data)[16]? = some '\'' := by decide
    rw [hu, hq] at h16
    injection h16
  cases this

/-- AST effect of the assignment tail: nothing, or exactly one
`assign_expr` for the declared variable. -/
theorem stmt_after_decl_ast {ty idv : String} {s s' : PState}
    (h : stmt_after_decl ty idv s = some s') :
    s'.ast = s.ast ∨ ∃ e, s'.ast = s.ast ++ [Stmt.assign_expr ty idv e] := by
  unfold stmt_after_decl at h
  split at h
  next s1 hp =>
    injection h with h'
    subst h'
    left
    rw [(delim_check_fr s1).2.1, (pmatch_fr_of_eq hp).2.1]
  next t0 s1 hp =>
    cases hq : expression (exprFuel s1) s1 with
    | none => rw [hq] at h; cases h
    | some p =>
      rw [hq] at h
      simp only [Option.some_bind] at h
      have hfr1 := pmatch_fr_of_eq hp
      have hfr2 := expression_fr hq
      split at h
      next hpe =>
        injection h with h'
        subst h'
        left
        show p.2.ast = s.ast
        rw [hfr2.2.1, hfr1.2.1]
      next hpe =>
        injection h with h'
        subst h'
        right
        refine ⟨p.1, ?_⟩
        have hdc := (delim_check_fr { p.2 with ast := p.2.ast ++ [Stmt.assign_expr ty idv p.1] }).2.1
        rw [hdc]
        show p.2.ast ++ _ = s.ast ++ _
        rw [hfr2.2.1, hfr1.2.1]

/-- AST effect of a generic statement: nothing (error paths), a lone
declaration, or a declaration immediately followed by an assignment to
the same name. -/
theorem statement_ast {s s' : PState} (h : statement s = some s') :
    s'.ast = s.ast ∨
    (∃ st, s'.ast = s.ast ++ [st] ∧ (declOf st).isSome) ∨
    (∃ st t n e, s'.ast = s.ast ++ [st, Stmt.assign_expr t n e] ∧ declOf st = some n) := by
  unfold statement at h
  split at h
  next tt0 s1 hp1 =>
  split at h
  next it0 s2 hp2 =>
  have hf1 := pmatch_fr_of_eq hp1
  have hf2 := pmatch_fr_of_eq hp2
  split at h
  next tt it =>
    split at h
    next _ s3 hp3 =>
      have hf3 := pmatch_fr_of_eq hp3
      split at h
      next s4 hp4 =>
        have hf4 := pmatch_fr_of_eq hp4
        injection h with h'
        subst h'
        left
        show s4.ast = s.ast
        rw [hf4.2.1, hf3.2.1, hf2.2.1, hf1.2.1]
      next st s4 hp4 =>
        have hf4 := pmatch_fr_of_eq hp4
        split at h
        next s5 hp5 =>
          have hf5 := pmatch_fr_of_eq hp5
          injection h with h'
          subst h'
          left
          show s5.ast = s.ast
          rw [hf5.2.1, hf4.2.1, hf3.2.1, hf2.2.1, hf1.2.1]
        next _ s5 hp5 =>
          have hf5 := pmatch_fr_of_eq hp5
          have hbase : s5.ast = s.ast := by
            rw [hf5.2.1, hf4.2.1, hf3.2.1, hf2.2.1, hf1.2.1]
          rcases stmt_after_decl_ast h with hA | ⟨e, hA⟩
          · right; left
            refine ⟨Stmt.declare_array tt.value it.value st.value, ?_, by simp [declOf]⟩
            rw [hA]
            show s5.ast ++ _ = s.ast ++ _
            rw [hbase]
          · right; right
            refine ⟨Stmt.declare_array tt.value it.value st.value,
                    tt.value, it.value, e, ?_, by simp [declOf]⟩
            rw [hA]
            show (s5.ast ++ _) ++ _ = s.ast ++ _
            rw [hbase, List.append_assoc]
            rfl
    next s3 hp3 =>
      have hf3 := pmatch_fr_of_eq hp3
      have hbase : s3.ast = s.ast := by
        rw [hf3.2.1, hf2.2.1, hf1.2.1]
      rcases stmt_after_decl_ast h with hA | ⟨e, hA⟩
      · right; left
        refine ⟨Stmt.declare tt.value it.value, ?_, by simp [declOf]⟩
        rw [hA]
        show s3.ast ++ _ = s.ast ++ _
        rw [hbase]
      · right; right
        refine ⟨Stmt.declare tt.value it.value, tt.value, it.value, e, ?_, by simp [declOf]⟩
        rw [hA]
        show (s3.ast ++ _) ++ _ = s.ast ++ _
        rw [hbase, List.append_assoc]
        rfl
  next hne =>
    injection h with h'
    subst h'
    left
    show s2.ast = s.ast
    rw [hf2.2.1, hf1.2.1]

/-- AST effect of a printf statement: nothing, or one `printf` node. -/
theorem printf_statement_ast (s : PState) :
    (printf_statement s).ast = s.ast ∨
    ∃ v, (printf_statement s).ast = s.ast ++ [Stmt.printf v] := by
  have hk : ∀ s0 : PState, (printf_after_kw s0).ast = s0.ast ∨
      ∃ v, (printf_after_kw s0).ast = s0.ast ++ [Stmt.printf v] := by
    intro s0
    unfold printf_after_kw
    split
    next s1 hp1 => exact Or.inl (pmatch_fr_of_eq hp1).2.1
    next _ s1 hp1 =>
      have hf1 := pmatch_fr_of_eq hp1
      split
      next s2 hp2 =>
        left
        show s2.ast = s0.ast
        rw [(pmatch_fr_of_eq hp2).2.1, hf1.2.1]
      next str_tok s2 hp2 =>
        have hf2 := pmatch_fr_of_eq hp2
        split
        next s3 hp3 =>
          left
          show s3.ast = s0.ast
          rw [(pmatch_fr_of_eq hp3).2.1, hf2.2.1, hf1.2.1]
        next _ s3 hp3 =>
          have hf3 := pmatch_fr_of_eq hp3
          split
          next s4 hp4 =>
            left
            show s4.ast = s0.ast
            rw [(pmatch_fr_of_eq hp4).2.1, hf3.2.1, hf2.2.1, hf1.2.1]
          next _ s4 hp4 =>
            right
            refine ⟨str_tok.value, ?_⟩
            show s4.ast ++ _ = s0.ast ++ _
            rw [(pmatch_fr_of_eq hp4).2.1, hf3.2.1, hf2.2.1, hf1.2.1]
  unfold printf_statement
  have hfr := pmatch_frame s "KEYWORD" (some "printf")
  rcases hk (pmatch s "KEYWORD" (some "printf")).2 with hA | ⟨v, hA⟩
  · left
    rw [hA, hfr.2.1]
  · right
    exact ⟨v, by rw [hA, hfr.2.1]⟩

/-- Function `statement` preserves the immediately-declared invariant. -/
theorem immdecl_statement {s s' : PState} (h : statement s = some s')
    (hI : ImmDecl s.ast) : ImmDecl s'.ast := by
  rcases statement_ast h with hA | ⟨st, hA, hsome⟩ | ⟨st, t, n, e, hA, hd⟩
  · rw [hA]; exact hI
  · rw [hA]
    refine immdecl_append_one hI ?_
    intro t n e hst
    rw [hst] at hsome
    simp [declOf] at hsome
  · rw [hA]
    exact immdecl_append_pair hI hd

/-- Function `printf_statement` preserves the invariant. -/
theorem immdecl_printf (s : PState) (hI : ImmDecl s.ast) :
    ImmDecl (printf_statement s).ast := by
  rcases printf_statement_ast s with hA | ⟨v, hA⟩
  · rw [hA]; exact hI
  · rw [hA]
    refine immdecl_append_one hI ?_
    intro t n e hst
    cases hst

/-- The function-body loop preserves the invariant. -/
theorem immdecl_fn_body : ∀ fuel {s s' : PState}, fn_body fuel s = some s' →
    ImmDecl s.ast → ImmDecl s'.ast := by
  intro fuel
  induction fuel with
  | zero => intro s s' h hI; simp [fn_body] at h
  | succ fuel ih =>
    intro s s' h hI
    simp only [fn_body] at h
    split at h
    next htok =>
      injection h with h'
      subst h'
      exact hI
    next token htok =>
      split at h
      · injection h with h'
        subst h'
        exact hI
      · split at h
        next hkw => exact ih h (immdecl_printf s hI)
        next hkw =>
          cases hq : statement s with
          | none => rw [hq] at h; cases h
          | some s2 =>
            rw [hq] at h
            simp only [Option.some_bind] at h
            exact ih h (immdecl_statement hq hI)

/-- The post-name part of a function definition preserves the invariant. -/
theorem immdecl_fn_def_body {s s' : PState} (h : fn_def_body s = some s')
    (hI : ImmDecl s.ast) : ImmDecl s'.ast := by
  unfold fn_def_body at h
  split at h
  next _ s3 hp3 =>
  split at h
  next _ s4 hp4 =>
  have hf3 := pmatch_fr_of_eq hp3
  have hf4 := pmatch_fr_of_eq hp4
  have hI4 : ImmDecl s4.ast := by
    rw [hf4.2.1, hf3.2.1]
    exact hI
  split at h
  next s5 hp5 =>
    injection h with h'
    subst h'
    show ImmDecl s5.ast
    rw [(pmatch_fr_of_eq hp5).2.1]
    exact hI4
  next _ s5 hp5 =>
    have hI5 : ImmDecl s5.ast := by
      rw [(pmatch_fr_of_eq hp5).2.1]
      exact hI4
    cases hq : fn_body (s5.tokens.length + 1) s5 with
    | none => rw [hq] at h; cases h
    | some s6 =>
      rw [hq] at h
      simp only [Option.some_bind] at h
      have hI6 := immdecl_fn_body _ hq hI5
      split at h
      next _ s7 hp7 =>
        injection h with h'
        subst h'
        rw [(pmatch_fr_of_eq hp7).2.1]
        exact hI6
      next s7 hp7 =>
        injection h with h'
        subst h'
        show ImmDecl s7.ast
        rw [(pmatch_fr_of_eq hp7).2.1]
        exact hI6

/-- Function `function_definition` preserves the invariant. -/
theorem immdecl_function_definition {s s' : PState}
    (h : function_definition s = some s') (hI : ImmDecl s.ast) : ImmDecl s'.ast := by
  unfold function_definition at h
  split at h
  next _ s1 hp1 =>
  have hI1 : ImmDecl s1.ast := by
    rw [(pmatch_fr_of_eq hp1).2.1]
    exact hI
  split at h
  next _ s2 hp2 =>
    refine immdecl_fn_def_body h ?_
    rw [(pmatch_fr_of_eq hp2).2.1]
    exact hI1
  next s2 hp2 =>
    refine immdecl_fn_def_body h ?_
    rw [(pmatch_frame s1 "ID" none).2.1]
    exact hI1

/-- The top-level parser loop preserves the invariant. -/
theorem immdecl_parse_loop : ∀ fuel {s s' : PState}, parse_loop fuel s = some s' →
    ImmDecl s.ast → ImmDecl s'.ast := by
  intro fuel
  induction fuel with
  | zero => intro s s' h hI; simp [parse_loop] at h
  | succ fuel ih =>
    intro s s' h hI
    simp only [parse_loop] at h
    split at h
    next htok =>
      injection h with h'
      subst h'
      exact hI
    next token htok =>
      split at h
      next hinc =>
        refine ih h ?_
        show ImmDecl (s.ast ++ [Stmt.include_ token.value])
        refine immdecl_append_one hI ?_
        intro t n e hst
        cases hst
      next hninc =>
        split at h
        next hkw =>
          split at h
          next hla =>
            cases hq : function_definition s with
            | none => rw [hq] at h; cases h
            | some s2 =>
              rw [hq] at h
              simp only [Option.some_bind] at h
              exact ih h (immdecl_function_definition hq hI)
          next hla =>
            split at h
            next hpf => exact ih h (immdecl_printf s hI)
            next hpf =>
              cases hq : statement s with
              | none => rw [hq] at h; cases h
              | some s2 =>
                rw [hq] at h
                simp only [Option.some_bind] at h
                exact ih h (immdecl_statement hq hI)
        next hkw =>
          cases hq : statement s with
          | none => rw [hq] at h; cases h
          | some s2 =>
            rw [hq] at h
            simp only [Option.some_bind] at h
            exact ih h (immdecl_statement hq hI)

/-- The semantic analyzer emits no undeclared-variable diagnostic when
every assignment target is declared earlier in the AST or already in the
symbol set. -/
theorem analyze_go_no_undecl :
    ∀ (ast : List Stmt) (syms errs : List String),
      (∀ (i : Nat) (t n : String) (e : PExpr), ast[i]? = some (Stmt.assign_expr t n e) →
        (∃ j st, j < i ∧ ast[j]? = some st ∧ declOf st = some n) ∨ n ∈ syms) →
      (∀ m, undeclMsg m ∉ errs) →
      ∀ m, undeclMsg m ∉ analyze_go ast syms errs := by
  intro ast
  induction ast with
  | nil =>
    intro syms errs hinv herr m
    simpa [analyze_go] using herr m
  | cons st rest ih =>
    intro syms errs hinv herr m
    cases st with
    | declare ty n0 =>
      simp only [analyze_go]
      by_cases hmem : n0 ∈ syms
      · rw [if_pos hmem]
        refine ih syms _ ?_ ?_ m
        · intro i t n e hi
          rcases hinv (i + 1) t n e
              (by simp only [List.getElem?_cons_succ]; exact hi) with
            ⟨j, st', hj, hjget, hd⟩ | hsym
          · cases j with
            | zero =>
              simp only [List.getElem?_cons_zero, Option.some.injEq] at hjget
              rw [← hjget] at hd
              simp only [declOf, Option.some.injEq] at hd
              right
              rw [← hd]
              exact hmem
            | succ j' =>
              left
              exact ⟨j', st', by omega,
                by simpa only [List.getElem?_cons_succ] using hjget, hd⟩
          · right; exact hsym
        · intro m' hmem'
          rcases List.mem_append.mp hmem' with hin | hin
          · exact herr m' hin
          · simp only [List.mem_singleton] at hin
            exact undecl_ne_redecl m' n0 hin
      · rw [if_neg hmem]
        refine ih (n0 :: syms) errs ?_ herr m
        intro i t n e hi
        rcases hinv (i + 1) t n e
            (by simp only [List.getElem?_cons_succ]; exact hi) with
          ⟨j, st', hj, hjget, hd⟩ | hsym
        · cases j with
          | zero =>
            simp only [List.getElem?_cons_zero, Option.some.injEq] at hjget
            rw [← hjget] at hd
            simp only [declOf, Option.some.injEq] at hd
            right
            rw [← hd]
            exact List.mem_cons_self n0 syms
          | succ j' =>
            left
            exact ⟨j', st', by omega,
              by simpa only [List.getElem?_cons_succ] using hjget, hd⟩
        · right; exact List.mem_cons_of_mem n0 hsym
    | declare_array ty n0 sz =>
      simp only [analyze_go]
      by_cases hmem : n0 ∈ syms
      · rw [if_pos hmem]
        refine ih syms _ ?_ ?_ m
        · intro i t n e hi
          rcases hinv (i + 1) t n e
              (by simp only [List.getElem?_cons_succ]; exact hi) with
            ⟨j, st', hj, hjget, hd⟩ | hsym
          · cases j with
            | zero =>
              simp only [List.getElem?_cons_zero, Option.some.injEq] at hjget
              rw [← hjget] at hd
              simp only [declOf, Option.some.injEq] at hd
              right
              rw [← hd]
              exact hmem
            | succ j' =>
              left
              exact ⟨j', st', by omega,
                by simpa only [List.getElem?_cons_succ] using hjget, hd⟩
          · right; exact hsym
        · intro m' hmem'
          rcases List.mem_append.mp hmem' with hin | hin
          · exact herr m' hin
          · simp only [List.mem_singleton] at hin
            exact undecl_ne_redecl m' n0 hin
      · rw [if_neg hmem]
        refine ih (n0 :: syms) errs ?_ herr m
        intro i t n e hi
        rcases hinv (i + 1) t n e
            (by simp only [List.getElem?_cons_succ]; exact hi) with
          ⟨j, st', hj, hjget, hd⟩ | hsym
        · cases j with
          | zero =>
            simp only [List.getElem?_cons_zero, Option.some.injEq] at hjget
            rw [← hjget] at hd
            simp only [declOf, Option.some.injEq] at hd
            right
            rw [← hd]
            exact List.mem_cons_self n0 syms
          | succ j' =>
            left
            exact ⟨j', st', by omega,
              by simpa only [List.getElem?_cons_succ] using hjget, hd⟩
        · right; exact List.mem_cons_of_mem n0 hsym
    | assign_expr ty n0 e0 =>
      simp only [analyze_go]
      rcases hinv 0 ty n0 e0 (by simp) with ⟨j, st', hj, _, _⟩ | hsym
      · omega
      · rw [if_pos hsym]
        refine ih syms errs ?_ herr m
        intro i t n e hi
        rcases hinv (i + 1) t n e
            (by simp only [List.getElem?_cons_succ]; exact hi) with
          ⟨j, st', hj, hjget, hd⟩ | hsym'
        · cases j with
          | zero =>
            simp only [List.getElem?_cons_zero, Option.some.injEq] at hjget
            rw [← hjget] at hd
            simp [declOf] at hd
          | succ j' =>
            left
            exact ⟨j', st', by omega,
              by simpa only [List.getElem?_cons_succ] using hjget, hd⟩
        · right; exact hsym'
    | include_ txt =>
      simp only [analyze_go]
      refine ih syms errs ?_ herr m
      intro i t n e hi
      rcases hinv (i + 1) t n e
          (by simp only [List.getElem?_cons_succ]; exact hi) with
        ⟨j, st', hj, hjget, hd⟩ | hsym
      · cases j with
        | zero =>
          simp only [List.getElem?_cons_zero, Option.some.injEq] at hjget
          rw [← hjget] at hd
          simp [declOf] at hd
        | succ j' =>
          left
          exact ⟨j', st', by omega,
            by simpa only [List.getElem?_cons_succ] using hjget, hd⟩
      · right; exact hsym
    | printf sv =>
      simp only [analyze_go]
      refine ih syms errs ?_ herr m
      intro i t n e hi
      rcases hinv (i + 1) t n e
          (by simp only [List.getElem?_cons_succ]; exact hi) with
        ⟨j, st', hj, hjget, hd⟩ | hsym
      · cases j with
        | zero =>
          simp only [List.getElem?_cons_zero, Option.some.injEq] at hjget
          rw [← hjget] at hd
          simp [declOf] at hd
        | succ j' =>
          left
          exact ⟨j', st', by omega,
            by simpa only [List.getElem?_cons_succ] using hjget, hd⟩
      · right; exact hsym

/-- Claim C10: the semantic analyzer run on the parser's own output never
emits an `"Undeclared variable"` diagnostic: the parser only appends an
`assign_expr` node immediately after appending a `declare` or
`declare_array` node with the same variable name (the `ImmDecl`
invariant), so the assignment target is always already in the symbol set
when the `assign_expr` is processed. -/
theorem c10_no_undeclared :
    ∀ (tokens : List Token) (ast : List Stmt) (errs : List String),
      Parser.parse tokens = some (ast, errs) →
      ImmDecl ast ∧ ∀ n, undeclMsg n ∉ SemanticAnalyzer.analyze ast := by
  intro tokens ast errs hp
  unfold Parser.parse at hp
  cases hq : parse_loop (tokens.length + 1) ⟨tokens, 0, [], []⟩ with
  | none => rw [hq] at hp; cases hp
  | some sEnd =>
    rw [hq] at hp
    simp only [Option.map_some'] at hp
    injection hp with hp'
    have hast : sEnd.ast = ast := by
      have := congrArg Prod.fst hp'
      simpa using this
    have hI : ImmDecl ast := by
      rw [← hast]
      exact immdecl_parse_loop _ hq immdecl_nil
    refine ⟨hI, ?_⟩
    intro n
    unfold SemanticAnalyzer.analyze
    refine analyze_go_no_undecl ast [] [] ?_ (by simp) n
    intro i t n' e hi
    obtain ⟨j, st, hij, hjget, hd⟩ := hI i t n' e hi
    exact Or.inl ⟨j, st, by omega, hjget, hd⟩

theorem c10_witness :
    undeclMsg "x" ∉
      SemanticAnalyzer.analyze
        [Stmt.declare "int" "x", Stmt.assign_expr "int" "x" (PExpr.leaf "5")] :=
  (c10_no_undeclared
    [⟨"KEYWORD", "int"⟩, ⟨"ID", "x"⟩, ⟨"OP", "="⟩, ⟨"NUM", "5"⟩, ⟨"DELIM", ";"⟩]
    [Stmt.declare "int" "x", Stmt.assign_expr "int" "x" (PExpr.leaf "5")]
    [] rfl).2 "x"
